import Mathlib

/-!
Verification of the meetup scheduling core: a shallow embedding of the
shared-state synchronization channel, the weekly recurrence engine, the
civil-time converter and the visibility projection, together with proofs
of the specified properties.

Modelling conventions, fixed throughout this file:

* Machine integers are `Int`/`Nat`.  JavaScript epoch-millisecond values are
  `Int`; the epoch is shifted to 0001-01-01T00:00Z (proleptic Gregorian),
  which is an order- and difference-preserving shift of the Unix epoch, and
  only differences and order of instants are ever used by the code.
* The executing environment's ambient offset is taken to be UTC, the one
  coherent reading of the source (the code subtracts/adds the fixed UTC+9
  offset explicitly, so its civil arithmetic is correct exactly when the
  zone-less parse is a plain UTC parse).  All date/time arithmetic is then
  explicit fixed-offset arithmetic, as the specification describes.
* A stored "YYYY-MM-DD" civil date string is represented by its proleptic
  Gregorian day number (`Nat`, day 0 = 0001-01-01); for four-digit years the
  string encoding is strictly monotone in the day number, so lexicographic
  string comparison of dates coincides with `Nat` order on day numbers.
  The `CivilDate` structure and the conversions `toDayNumber`/`ofDayNumber`
  below realise the bijection.
* A stored "HH:mm" civil time-of-day string is represented by `TimeHM`;
  an absent time (the empty string, which is falsy in JavaScript) is `none`.
-/

set_option linter.unusedVariables false

set_option maxRecDepth 10000

/-- TimeHM models a "HH:mm" time-of-day value. -/
structure TimeHM where
  hh : Nat
  mm : Nat
deriving DecidableEq, Repr

/-- Participant record, as in the source. -/
structure Participant where
  id : Int
  name : String
  leader : Bool
deriving DecidableEq, Repr

/-- CancelRequest record, as in the source. -/
structure CancelRequest where
  userId : Int
  name : String
  reason : String
deriving DecidableEq, Repr

/-- EventItem record, as in the source; `date` is the day number of the
"YYYY-MM-DD" string and `time` is `none` for the empty time string. -/
structure EventItem where
  id : Int
  title : String
  date : Nat
  time : Option TimeHM
  category : String
  participants : List Participant
  cancelRequests : List CancelRequest
  openForApplications : Bool
  notifiedToAll : Bool
  repeatWeekly : Bool
deriving DecidableEq, Repr

/-- User record, as in the source. -/
structure User where
  id : Int
  name : String
  password : String
  isAdmin : Bool
deriving DecidableEq, Repr

/-- CAPACITY = 4, as in the source. -/
def CAPACITY : Nat := 4

/-! ## Proleptic Gregorian calendar (the arithmetic inside JS `Date`)

These definitions model ECMA-262 `MakeDay`/date decomposition, which the
source delegates to the host `Date` object. -/

/-- Gregorian leap-year rule. -/
def isLeap (y : Nat) : Bool :=
  (y % 4 == 0 && y % 100 != 0) || y % 400 == 0

/-- Number of days in month `m` (1-based) of year `y`. -/
def daysInMonth (y m : Nat) : Nat :=
  if m = 2 then (if isLeap y then 29 else 28)
  else if m = 4 ∨ m = 6 ∨ m = 9 ∨ m = 11 then 30
  else 31

/-- Days in the months of year `y` strictly before month `m` (1-based). -/
def daysBeforeMonth (y : Nat) : Nat → Nat
  | 0 => 0
  | m + 1 => if m = 0 then 0 else daysBeforeMonth y m + daysInMonth y m

/-- Number of days in year `y`. -/
def daysInYear (y : Nat) : Nat := if isLeap y then 366 else 365

/-- Number of leap years in `1..y-1` (closed form). -/
def leapsBefore (y : Nat) : Nat := (y - 1) / 4 - (y - 1) / 100 + (y - 1) / 400

/-- Days in the years strictly before year `y` (years are 1-based);
closed form so that it evaluates in constant depth. -/
def daysBeforeYear (y : Nat) : Nat := 365 * (y - 1) + leapsBefore y

/-- A civil date, the parsed form of a "YYYY-MM-DD" string. -/
structure CivilDate where
  year : Nat
  month : Nat
  day : Nat
deriving DecidableEq, Repr

/-- Validity of a civil date: a calendar date with a four-digit year
(the "YYYY-MM-DD" wire format). -/
def ValidDate (d : CivilDate) : Prop :=
  1000 ≤ d.year ∧ d.year ≤ 9999 ∧ 1 ≤ d.month ∧ d.month ≤ 12 ∧
    1 ≤ d.day ∧ d.day ≤ daysInMonth d.year d.month

instance (d : CivilDate) : Decidable (ValidDate d) := by
  unfold ValidDate; infer_instance

/-- Validity of a time-of-day. -/
def ValidTime (t : TimeHM) : Prop := t.hh < 24 ∧ t.mm < 60

instance (t : TimeHM) : Decidable (ValidTime t) := by
  unfold ValidTime; infer_instance

/-- Day number of a civil date (0 = 0001-01-01). -/
def toDayNumber (d : CivilDate) : Nat :=
  daysBeforeYear d.year + daysBeforeMonth d.year d.month + (d.day - 1)

/-- Peel whole months off a day-of-year, 1-based month counter, bounded by
the first (fuel) argument. -/
def monthGo (y : Nat) : Nat → Nat → Nat → CivilDate
  | 0, m, n => ⟨y, m, n + 1⟩
  | fuel + 1, m, n =>
    if n < daysInMonth y m then ⟨y, m, n + 1⟩
    else monthGo y fuel (m + 1) (n - daysInMonth y m)

/-- Decompose a day-of-year (0-based, `< daysInYear y`) into a date. -/
def monthDecomp (y n : Nat) : CivilDate := monthGo y 12 1 n

/-- Peel whole years off a day number starting at year `y`; the first
argument is fuel bounding the recursion (each step removes ≥ 365 days). -/
def yearPeel : Nat → Nat → Nat → CivilDate
  | 0, y, n => ⟨y, 1, n + 1⟩
  | fuel + 1, y, n =>
    if n < daysInYear y then monthDecomp y n
    else yearPeel fuel (y + 1) (n - daysInYear y)

/-- Peel whole 400-year cycles off a day number (every 400-year window has
exactly 146097 days), so that date decomposition evaluates in small
recursion depth. -/
def yearPeel400 : Nat → Nat → Nat → Nat × Nat
  | 0, y, n => (y, n)
  | fuel + 1, y, n =>
    if n < 146097 then (y, n)
    else yearPeel400 fuel (y + 400) (n - 146097)

/-- Civil date of a day number (inverse of `toDayNumber` on valid dates). -/
def ofDayNumber (n : Nat) : CivilDate :=
  let p := yearPeel400 (n / 146097 + 1) 1 n
  yearPeel 500 p.1 p.2

/-! ## Civil-time converter (`kstToUtcISO`, `utcISOToKst`, `add7KstSafe`)

The source parses a zone-less "YYYY-MM-DDTHH:mm:00" string and then performs
the fixed UTC+9 offset arithmetic explicitly (ambient offset UTC, see the
header).  Instants are epoch milliseconds (`Int`). -/

/-- KST offset in minutes, as in the source. -/
def KST_OFFSET_MIN : Int := 9 * 60

/-- kstToUtcISO on a day-number date: the epoch instant (ms) of the given
KST civil date and time. -/
def kstToUtcISO (date : Nat) (t : TimeHM) : Int :=
  ((date * 1440 + t.hh * 60 + t.mm : Nat) : Int) * 60000 - KST_OFFSET_MIN * 60000

/-- kstToUtcISO on a structured civil date. -/
def kstToUtcISOCivil (d : CivilDate) (t : TimeHM) : Int :=
  kstToUtcISO (toDayNumber d) t

/-- utcISOToKst: add the fixed offset back and decompose the instant into
the KST civil date and "HH:mm" time (seconds are dropped), mirroring the
getFullYear/getMonth/getDate/getHours/getMinutes rendering in the source. -/
def utcISOToKst (ms : Int) : CivilDate × TimeHM :=
  (ofDayNumber ((ms + KST_OFFSET_MIN * 60000) / 86400000).toNat,
   ⟨((ms + KST_OFFSET_MIN * 60000) % 86400000).toNat / 3600000,
    ((ms + KST_OFFSET_MIN * 60000) % 86400000).toNat % 3600000 / 60000⟩)

/-- add7KstSafe: anchor the date at local noon, add 7 days, take the date
part again (the noon anchor makes the division exact). -/
def add7KstSafe (date : Nat) : Nat :=
  (date * 1440 + 720 + 7 * 1440) / 1440

/-! ### Round trip: `ofDayNumber` inverts `toDayNumber` on valid dates -/

/-- Sum of month lengths for months `m, m+1, ..., m+k-1` of year `y`. -/
def mSumFrom (y : Nat) : Nat → Nat → Nat
  | _, 0 => 0
  | m, k + 1 => daysInMonth y m + mSumFrom y (m + 1) k

/-- Sum of year lengths for years `y, y+1, ..., y+k-1`. -/
def ySumFrom : Nat → Nat → Nat
  | _, 0 => 0
  | y, k + 1 => daysInYear y + ySumFrom (y + 1) k

/-! ## The sort order used by the engine and projection

The source sorts group members by `(a.date + a.time).localeCompare(b.date +
b.time)`.  For "YYYY-MM-DD" dates (fixed width, zero padded) followed by ""
or "HH:mm" times, that string comparison is exactly the lexicographic order
on (day number, time rank) with the absent time ranking first. -/

/-- Rank of a time-of-day in the sort key; the absent time ("" as a string)
sorts before every "HH:mm". -/
def timeRank : Option TimeHM → Nat
  | none => 0
  | some t => 1 + t.hh * 60 + t.mm

/-- The comparison `(a.date + a.time) ≤ (b.date + b.time)` of the source. -/
def evLe (a b : EventItem) : Prop :=
  a.date < b.date ∨ (a.date = b.date ∧ timeRank a.time ≤ timeRank b.time)

instance : DecidableRel evLe := fun a b => by
  unfold evLe; infer_instance

instance : IsTotal EventItem evLe := by
  constructor
  intro a b
  unfold evLe
  omega

instance : IsTrans EventItem evLe := by
  constructor
  intro a b c
  unfold evLe
  omega

/-! ## Grouping (`groups[key] ||= []; groups[key].push(ev)`)

A JavaScript object with non-index string keys iterates its keys in first
insertion order (every key used here contains a pipe, so none is an array
index).  The groups are therefore: the distinct keys in first-occurrence
order, each with the sublist of elements having that key, in order. -/

section Grouping

variable {α : Type u_1} {κ : Type u_2} [DecidableEq κ] (f : α → κ)

/-- The distinct keys of `l` under `f`, in first-occurrence order. -/
def keyListBy : List α → List κ
  | [] => []
  | a :: l => f a :: (keyListBy l).filter (fun k => !decide (k = f a))

/-- The groups of `l` under key function `f`: first-occurrence key order,
members in encounter order. -/
def groupPairsBy (l : List α) : List (κ × List α) :=
  (keyListBy f l).map (fun k => (k, l.filter (fun e => decide (f e = k))))

end Grouping

/-! ## Group keys and unique id generation -/

/-- Two-digit zero-padded decimal rendering (the values stored by the HTML
time input are two-digit). -/
def pad2 (n : Nat) : String :=
  ⟨[Char.ofNat (48 + n / 10 % 10), Char.ofNat (48 + n % 10)]⟩

/-- The stored time string: "" when absent, "HH:mm" otherwise. -/
def timeStrOf : Option TimeHM → String
  | none => ""
  | some t => pad2 t.hh ++ ":" ++ pad2 t.mm

/-- The group key of the source: `title + "|" + time + "|" + category`. -/
def keyOf (e : EventItem) : String :=
  e.title ++ "|" ++ timeStrOf e.time ++ "|" ++ e.category

/-- makeId's collision loop, with explicit fuel (`existing.length + 1` steps
always reach a free id). -/
def makeIdGo (existing : List Int) : Nat → Int → Int
  | 0, c => c
  | fuel + 1, c => if c ∈ existing then makeIdGo existing fuel (c + 1) else c

/-- makeId: start from `Date.now()` (the `now` argument here) and increment
past collisions with the ids already in the collection. -/
def makeId (now : Int) (l : List EventItem) : Int :=
  makeIdGo (l.map (fun e => e.id)) (l.length + 1) now

/-! ## Recurrence engine (`tick` = pruning effect, then generation effect)

`now` is the instant (epoch ms) at which the effects run; both effects read
the same clock.  For an event with a time, the pruning condition is
`start ≥ now - 3 days`; for one without, the date is compared with
`today - 3` where `today` is the ambient civil date of `now` (the pruning
effect branches on the presence of a time, so it never converts an absent
one).  The generation effect has no such branch: its scan calls the
converter on every member it visits, and on an event without a time the
source builds an Invalid Date and `toISOString` throws a RangeError,
aborting the whole effect.  The total functions below (`startedByNow` …
`tick`) are the projection of the effect onto the inputs where that scan
meets only timed events; the `…E` variants after them model the error
path faithfully, and `tickE_eq` below proves the projection agrees with
the fallible model exactly on time-complete collections. -/

/-- The pruning predicate (kept = true), from the pruning effect. -/
def prunePred (now : Int) (e : EventItem) : Bool :=
  match e.time with
  | some t => decide (now - 259200000 ≤ kstToUtcISO e.date t)
  | none => decide (now / 86400000 - 3 ≤ (e.date : Int))

/-- The pruning effect: keep events inside the retention window. -/
def pruneEvents (now : Int) (l : List EventItem) : List EventItem :=
  l.filter (prunePred now)

/-- "already started by now": start instant ≤ now.  The `none` branch is a
totalization: on an event without a time the source throws inside the scan
(see `startedByNowE`); this total version is only ever faithful where that
branch is unreachable. -/
def startedByNow (now : Int) (e : EventItem) : Bool :=
  match e.time with
  | some t => decide (kstToUtcISO e.date t ≤ now)
  | none => false

/-- The most recently begun occurrence of a group: sort ascending by
(date + time), reverse, find the first already-started member. -/
def recentlyPassed (now : Int) (g : List EventItem) : Option EventItem :=
  (g.insertionSort evLe).reverse.find? (startedByNow now)

/-- The existence check before inserting the next occurrence. -/
def existsNext (g : List EventItem) (nextDate : Nat) (t : Option TimeHM) : Bool :=
  g.any (fun x => decide (x.date = nextDate) && decide (x.time = t))

/-- The per-group generation decision (everything except the fresh id):
`none` when the group generates nothing this tick. -/
def genCore (now : Int) (g : List EventItem) : Option EventItem :=
  if g.any (fun x => x.repeatWeekly) then
    match recentlyPassed now g with
    | none => none
    | some rp =>
      if existsNext g (add7KstSafe rp.date) rp.time then none
      else some { rp with
        date := add7KstSafe rp.date,
        cancelRequests := [],
        notifiedToAll := false,
        openForApplications := decide (rp.participants.length < CAPACITY),
        repeatWeekly := true }
  else none

/-- Walk the groups in order, appending each generated occurrence; the `list`
argument is the growing collection that `makeId` scans. -/
def genCollect (now : Int) : List (String × List EventItem) → List EventItem → List EventItem
  | [], _ => []
  | kg :: gs, list =>
    match genCore now kg.2 with
    | some c => { c with id := makeId now list }
        :: genCollect now gs (list ++ [{ c with id := makeId now list }])
    | none => genCollect now gs list

/-- The groups of the events collection under the pipe-joined key. -/
def groupByKey (l : List EventItem) : List (String × List EventItem) :=
  groupPairsBy keyOf l

/-- The generation effect: group, then append one next occurrence per group
that needs one. -/
def genWeekly (now : Int) (prev : List EventItem) : List EventItem :=
  prev ++ genCollect now (groupByKey prev) prev

/-- One application of the recurrence engine: pruning, then generation. -/
def tick (now : Int) (l : List EventItem) : List EventItem :=
  genWeekly now (pruneEvents now l)

/-! ### The fallible generation effect

The source's scan (`[...g].reverse().find(item => kstToUtcISO(item.date,
item.time) <= now)`) calls the converter on every member it visits; with
`item.time === ""` the converter builds an Invalid Date and `toISOString`
throws a RangeError, which escapes the `forEach` and the state updater, so
the effect produces no collection at all.  `Except.error ()` models that
throw. -/

/-- The scan predicate as the source evaluates it: a RangeError on an
event without a time. -/
def startedByNowE (now : Int) (e : EventItem) : Except Unit Bool :=
  match e.time with
  | some t => Except.ok (decide (kstToUtcISO e.date t ≤ now))
  | none => Except.error ()

/-- `Array.prototype.find` with a throwing predicate: the members are
visited in order and an exception aborts the search. -/
def findE {α : Type u_1} (p : α → Except Unit Bool) : List α → Except Unit (Option α)
  | [] => Except.ok none
  | a :: t =>
    match p a with
    | Except.error e => Except.error e
    | Except.ok true => Except.ok (some a)
    | Except.ok false => findE p t

/-- The "most recently begun" scan as the source runs it. -/
def recentlyPassedE (now : Int) (g : List EventItem) : Except Unit (Option EventItem) :=
  findE (startedByNowE now) (g.insertionSort evLe).reverse

/-- The per-group generation decision with the throwing scan (the
repeat-option guard runs before the scan, so a group with no repeating
member is skipped without visiting anyone). -/
def genCoreE (now : Int) (g : List EventItem) : Except Unit (Option EventItem) :=
  if g.any (fun x => x.repeatWeekly) then
    match recentlyPassedE now g with
    | Except.error e => Except.error e
    | Except.ok none => Except.ok none
    | Except.ok (some rp) =>
      if existsNext g (add7KstSafe rp.date) rp.time then Except.ok none
      else Except.ok (some { rp with
        date := add7KstSafe rp.date,
        cancelRequests := [],
        notifiedToAll := false,
        openForApplications := decide (rp.participants.length < CAPACITY),
        repeatWeekly := true })
  else Except.ok none

/-- Walk the groups with the throwing scan: an exception in any group
discards every addition (the updater aborts before returning). -/
def genCollectE (now : Int) : List (String × List EventItem) → List EventItem →
    Except Unit (List EventItem)
  | [], _ => Except.ok []
  | kg :: gs, list =>
    match genCoreE now kg.2 with
    | Except.error e => Except.error e
    | Except.ok (some c) =>
      match genCollectE now gs (list ++ [{ c with id := makeId now list }]) with
      | Except.error e => Except.error e
      | Except.ok rest => Except.ok ({ c with id := makeId now list } :: rest)
    | Except.ok none => genCollectE now gs list

/-- The generation effect with the error path. -/
def genWeeklyE (now : Int) (prev : List EventItem) : Except Unit (List EventItem) :=
  match genCollectE now (groupByKey prev) prev with
  | Except.error e => Except.error e
  | Except.ok adds => Except.ok (prev ++ adds)

/-- One application of the recurrence engine with the error path: pruning
(which never throws — it branches on the presence of a time), then the
fallible generation. -/
def tickE (now : Int) (l : List EventItem) : Except Unit (List EventItem) :=
  genWeeklyE now (pruneEvents now l)

/-! ## Scenario A (claim C1): concrete recurrence behaviour -/

/-- The instant 2025-08-09T10:01 in the fixed UTC+9 civil zone. -/
def scenarioNow : Int := kstToUtcISOCivil ⟨2025, 8, 9⟩ ⟨10, 1⟩

/-! ## User actions on the events collection

Each action is the updater passed to `setEvents`, acting on the whole
collection; the logged-in user is passed explicitly. -/

/-- isIn: the user is already a participant. -/
def isIn (ev : EventItem) (uid : Int) : Bool :=
  ev.participants.any (fun p => decide (p.id = uid))

/-- hasCapacity: below the 4-person cap. -/
def hasCapacity (ev : EventItem) : Bool :=
  decide (ev.participants.length < CAPACITY)

/-- joinEvent's per-event update. -/
def joinStep (u : User) (evId : Int) (e : EventItem) : EventItem :=
  if e.id ≠ evId then e
  else if isIn e u.id || !hasCapacity e then e
  else
    { e with
      participants := e.participants ++ [(⟨u.id, u.name, false⟩ : Participant)],
      openForApplications :=
        decide ((e.participants ++ [(⟨u.id, u.name, false⟩ : Participant)]).length < CAPACITY) }

/-- joinEvent. -/
def joinEvent (u : User) (evId : Int) (events : List EventItem) : List EventItem :=
  events.map (joinStep u evId)

/-- applyForSlot's per-event update. -/
def applyStep (u : User) (evId : Int) (e : EventItem) : EventItem :=
  if e.id ≠ evId || !e.openForApplications || !hasCapacity e || isIn e u.id then e
  else
    { e with
      participants := e.participants ++ [(⟨u.id, u.name, false⟩ : Participant)],
      openForApplications :=
        decide ((e.participants ++ [(⟨u.id, u.name, false⟩ : Participant)]).length < CAPACITY) }

/-- applyForSlot. -/
def applyForSlot (u : User) (evId : Int) (events : List EventItem) : List EventItem :=
  events.map (applyStep u evId)

/-- requestCancel: add one cancel request per user per event. -/
def requestCancel (u : User) (evId : Int) (reason : String)
    (events : List EventItem) : List EventItem :=
  events.map (fun e =>
    if e.id ≠ evId || !isIn e u.id then e
    else if e.cancelRequests.any (fun r => decide (r.userId = u.id)) then e
    else { e with cancelRequests := e.cancelRequests ++ [⟨u.id, u.name, reason⟩] })

/-- adminApproveCancel: drop the participant and the matching cancel
request, reopen applications. -/
def adminApproveCancel (isAdmin : Bool) (evId userId : Int)
    (events : List EventItem) : List EventItem :=
  if !isAdmin then events
  else events.map (fun e =>
    if e.id ≠ evId then e
    else { e with
      participants := e.participants.filter (fun p => !decide (p.id = userId)),
      cancelRequests := e.cancelRequests.filter (fun r => !decide (r.userId = userId)),
      openForApplications := true })

/-- adminRemoveParticipant: same update as cancel approval. -/
def adminRemoveParticipant (isAdmin : Bool) (evId userId : Int)
    (events : List EventItem) : List EventItem :=
  if !isAdmin then events
  else events.map (fun e =>
    if e.id ≠ evId then e
    else { e with
      participants := e.participants.filter (fun p => !decide (p.id = userId)),
      cancelRequests := e.cancelRequests.filter (fun r => !decide (r.userId = userId)),
      openForApplications := true })

/-- deleteEvent's local update: drop the event. -/
def deleteEventLocal (evId : Int) (l : List EventItem) : List EventItem :=
  l.filter (fun e => !decide (e.id = evId))

/-- The create/edit form state read by upsertEvent; `none` in `dateF`,
`timeF`, `editingId` and `leaderId` models the empty/null values. -/
structure UpsertForm where
  editingId : Option Int
  title : String
  dateF : Option Nat
  timeF : Option TimeHM
  category : String
  repeatWeekly : Bool
  selectedUserIds : List Int
  leaderId : Option Int

/-- Build the Participant list from the selected user ids (the source does
`users.find(x => x.id === uid)!` — a missing user throws, which leaves the
collection unchanged, modelled as `none`). -/
def mkParticipants (users : List User) : List Int → Option Int → Option (List Participant)
  | [], _ => some []
  | uid :: rest, leaderId =>
    match users.find? (fun x => decide (x.id = uid)) with
    | none => none
    | some u =>
      match mkParticipants users rest leaderId with
      | none => none
      | some ps => some (⟨u.id, u.name, decide (some uid = leaderId)⟩ :: ps)

/-- upsertEvent: guards, then the edit branch (map in place, debounced
save only) or the create branch (prepend, immediate save of the new
collection, returned as the second component). -/
def upsertEvent (isAdmin : Bool) (users : List User) (form : UpsertForm)
    (now : Int) (events : List EventItem) : List EventItem × Option (List EventItem) :=
  if !isAdmin then (events, none)
  else match form.dateF, form.timeF with
    | some d, some t =>
      if form.title = "" ∨ form.category = "" then (events, none)
      else if form.selectedUserIds.length = 0 ∨ form.selectedUserIds.length > CAPACITY then
        (events, none)
      else match form.leaderId with
        | none => (events, none)
        | some lid =>
          if lid ∉ form.selectedUserIds then (events, none)
          else match mkParticipants users form.selectedUserIds form.leaderId with
            | none => (events, none)
            | some participants =>
              match form.editingId with
              | some eid =>
                (events.map (fun e =>
                  if e.id = eid then
                    { e with
                      title := form.title, date := d, time := some t,
                      category := form.category, participants := participants,
                      repeatWeekly := form.repeatWeekly }
                  else e), none)
              | none =>
                let newEvent : EventItem := {
                  id := makeId now events,
                  title := form.title,
                  date := d,
                  time := some t,
                  category := form.category,
                  participants := participants,
                  cancelRequests := [],
                  openForApplications := decide (participants.length < CAPACITY),
                  notifiedToAll := false,
                  repeatWeekly := form.repeatWeekly }
                (newEvent :: events, some (newEvent :: events))
    | _, _ => (events, none)

/-! ## Shared-state channel (`useShared`)

A channel's observable state: the in-memory value, the `lastSavedStr`
("lastSynced") ref, and the pending debounced write (the value captured by
the live timer, `none` when no timer is set).  The canonical serializer
`JSON.stringify` is an abstract parameter `jf`. -/

/-- Channel state for a ready channel. -/
structure Chan (T : Type u_1) where
  value : T
  lastSynced : String
  pending : Option T

/-- scheduleSave: no-op when the value serializes to lastSynced (note: an
already-pending older write is then left alive), otherwise replace the
pending write with this value. -/
def scheduleSave {T : Type u_1} (jf : T → String) (ls : String)
    (pending : Option T) (cur : T) : Option T :=
  if jf cur = ls then pending else some cur

/-- The save effect: runs after each value change, debouncing the write. -/
def saveEffect {T : Type u_1} (jf : T → String) (st : Chan T) : Chan T :=
  { st with pending := scheduleSave jf st.lastSynced st.pending st.value }

/-- The debounce timer fires after the quiet window: perform the pending
write and record its serialization as lastSynced. -/
def debounceFire {T : Type u_1} (jf : T → String) (st : Chan T) :
    Chan T × Option T :=
  match st.pending with
  | some v => ({ st with lastSynced := jf v, pending := none }, some v)
  | none => (st, none)

/-- The subscription handler after a remote-change notification re-fetched
`fetched`: an echo (equal serialization) is ignored; otherwise lastSynced
is set to the fetched serialization and the value replaced. -/
def handleNotification {T : Type u_1} (jf : T → String) (fetched : T)
    (st : Chan T) : Chan T :=
  if jf fetched = st.lastSynced then st
  else { st with lastSynced := jf fetched, value := fetched }

/-- The pending write left by a burst of scheduleSave calls in one quiet
window (each call sees the same lastSynced; the timer never fires inside
the window). -/
def burstPending {T : Type u_1} (jf : T → String) (ls : String) (vs : List T) : Option T :=
  vs.foldl (scheduleSave jf ls) none

/-- The writes performed at the end of one quiet window. -/
def windowWrites {T : Type u_1} (jf : T → String) (ls : String) (vs : List T) : List T :=
  (burstPending jf ls vs).toList

/-- deleteEvent on the channel: optimistic local removal and an immediate
kvSave of the new collection dispatched in the same step, not through the
debounce timer (the pending timer is untouched). -/
def deleteEventFlow (isAdmin : Bool) (evId : Int) (st : Chan (List EventItem)) :
    Chan (List EventItem) × Option (List EventItem) :=
  if !isAdmin then (st, none)
  else ({ st with value := deleteEventLocal evId st.value },
        some (deleteEventLocal evId st.value))

/-- The completion handler of the immediate kvSave only logs: the channel
state (lastSynced included) is unchanged. -/
def immediateSaveComplete {T : Type u_1} (st : Chan T) : Chan T := st

/-- upsertEvent on the channel: the create branch dispatches an immediate
kvSave of the new collection, the edit branch writes only via debounce. -/
def upsertEventFlow (isAdmin : Bool) (users : List User) (form : UpsertForm)
    (now : Int) (st : Chan (List EventItem)) :
    Chan (List EventItem) × Option (List EventItem) :=
  ({ st with value := (upsertEvent isAdmin users form now st.value).1 },
   (upsertEvent isAdmin users form now st.value).2)

/-! ## Visibility projection (`feedByCategory`) -/

/-- reached: start ≤ now, or the event has no time-of-day. -/
def reachedPred (now : Int) (e : EventItem) : Bool :=
  match e.time with
  | none => true
  | some t => decide (kstToUtcISO e.date t ≤ now)

/-- The members of one group the feed shows: all reached members plus the
first future member of the sorted group. -/
def includedOfGroup (now : Int) (g : List EventItem) : List EventItem :=
  (g.insertionSort evLe).filter (reachedPred now)
    ++ ((g.insertionSort evLe).filter (fun e => !reachedPred now e)).head?.toList

/-- All shown events, walking the groups in order. -/
def includedAll (now : Int) (events : List EventItem) : List EventItem :=
  (groupByKey events).flatMap (fun kg => includedOfGroup now kg.2)

/-- The feed bucket of one category: the shown events of that category,
sorted ascending by (date, time). -/
def feedByCategory (now : Int) (events : List EventItem) (c : String) : List EventItem :=
  ((includedAll now events).filter (fun e => decide (e.category = c))).insertionSort evLe

/-! ### The specification-side projection (grouping by the exact
(title, time, category) tuple, as the spec words it) -/

/-- The exact structural series key of the specification. -/
def tupleKey (e : EventItem) : String × Option TimeHM × String :=
  (e.title, e.time, e.category)

/-- Series of the specification: exact tuple equality classes. -/
def groupByTuple (l : List EventItem) :
    List ((String × Option TimeHM × String) × List EventItem) :=
  groupPairsBy tupleKey l

/-- What the specification says one series contributes: its reached
members, plus the earliest future member when a future member exists. -/
def specIncludedOfGroup (now : Int) (g : List EventItem) : List EventItem :=
  g.filter (reachedPred now)
    ++ ((g.filter (fun e => !reachedPred now e)).insertionSort evLe).head?.toList

/-- The specification-side content of one category bucket. -/
def specBucket (now : Int) (events : List EventItem) (c : String) : List EventItem :=
  ((groupByTuple events).flatMap (fun kg => specIncludedOfGroup now kg.2)).filter
    (fun e => decide (e.category = c))

/-! ## Channel facts -/

/-- A concrete stand-in for `JSON.stringify` on event collections, used in
concrete counterexamples (it distinguishes the concrete values involved,
as stringify does). -/
def jTime : Option TimeHM → String
  | none => "null"
  | some t => toString t.hh ++ ":" ++ toString t.mm

/-- Serialize one event. -/
def jEvent (e : EventItem) : String :=
  toString e.id ++ ";" ++ e.title ++ ";" ++ toString e.date ++ ";"
    ++ jTime e.time ++ ";" ++ e.category ++ ";"
    ++ toString (e.participants.map (fun p => p.id)) ++ ";"
    ++ toString (e.cancelRequests.map (fun r => r.userId)) ++ ";"
    ++ toString e.openForApplications ++ ";" ++ toString e.notifiedToAll ++ ";"
    ++ toString e.repeatWeekly

/-- Serialize an event collection. -/
def jEvents (l : List EventItem) : String :=
  "[" ++ String.intercalate "," (l.map jEvent) ++ "]"

/-- cancelRequests entries always reference current participants. -/
def CancelInv (l : List EventItem) : Prop :=
  ∀ e ∈ l, ∀ r ∈ e.cancelRequests, ∃ p ∈ e.participants, p.id = r.userId

instance (l : List EventItem) : Decidable (CancelInv l) := by
  unfold CancelInv
  infer_instance

/-! ## Key injectivity for pipe-free titles and categories (claim C9) -/

/-- A string without the pipe separator. -/
def NoPipe (s : String) : Prop := ('|' : Char) ∉ s.data

/-- The events on which the pipe-joined key is injective: pipe-free titles
and categories, valid times. -/
def WellFormedFeed (events : List EventItem) : Prop :=
  ∀ e ∈ events, NoPipe e.title ∧ NoPipe e.category ∧ ∀ t ∈ e.time, ValidTime t

instance (events : List EventItem) : Decidable (WellFormedFeed events) := by
  unfold WellFormedFeed NoPipe
  infer_instance

/-! ## The groups of two key functions that identify the same elements -/

section GroupCongr

variable {α : Type u_1} {κ : Type u_2} {κ2 : Type u_3} [DecidableEq κ] [DecidableEq κ2]

/-- The member lists of the groups, dropping the keys. -/
def sndGroupsBy (f : α → κ) (l : List α) : List (List α) :=
  (keyListBy f l).map (fun k => l.filter (fun e => decide (f e = k)))

end GroupCongr

/-! ## Concrete instances used by the closed witnesses and counterexamples -/

/-- Scenario A, first member (2025-08-02). -/
def e1c : EventItem :=
  ⟨1, "Saturday Meetup", toDayNumber ⟨2025, 8, 2⟩, some ⟨10, 0⟩, "Saturday",
    [], [], true, false, true⟩

/-- Scenario A, second member (2025-08-09). -/
def e2c : EventItem :=
  ⟨2, "Saturday Meetup", toDayNumber ⟨2025, 8, 9⟩, some ⟨10, 0⟩, "Saturday",
    [], [], true, false, true⟩

/-- A minimal concrete event. -/
def ev0 : EventItem := ⟨1, "t", 5, none, "c", [], [], true, false, false⟩

/-- A ready channel holding `[ev0]`, fully synced, no pending write. -/
def ch0 : Chan (List EventItem) := ⟨[ev0], jEvents [ev0], none⟩

/-- An event with one participant and a matching cancel request. -/
def ev7 : EventItem :=
  ⟨1, "t", 5, some ⟨10, 0⟩, "c", [⟨5, "p", true⟩], [⟨5, "p", "r"⟩], true, false, false⟩

/-- One selectable user, id 6. -/
def users7 : List User := [⟨6, "q", "", false⟩]

/-- An edit form replacing the participants of event 1 with user 6. -/
def form7 : UpsertForm := ⟨some 1, "t", some 2, some ⟨9, 30⟩, "c", false, [6], some 6⟩

/-- The pipe-collision pair: the two keys coincide although the
(title, time, category) tuples differ. -/
def e1x : EventItem :=
  ⟨1, "x", 100, some ⟨10, 0⟩, "y|10:00|z", [], [], true, false, false⟩

/-- Second member of the pipe-collision pair. -/
def e2x : EventItem :=
  ⟨2, "x|10:00|y", 101, some ⟨10, 0⟩, "z", [], [], true, false, false⟩

/-- A single well-formed event for the feed-projection witness. -/
def evW : EventItem :=
  ⟨1, "t", 100, some ⟨10, 0⟩, "c", [], [], true, false, false⟩

/-- A repeating event without a time-of-day: it survives pruning and its
group is scanned, so the generation effect throws on it. -/
def evT : EventItem := ⟨1, "t", 5, none, "c", [], [], true, false, true⟩

/-- isLeap unfolded to arithmetic conditions. -/
theorem isLeap_iff (y : Nat) :
    isLeap y = true ↔ ((y % 4 = 0 ∧ y % 100 ≠ 0) ∨ y % 400 = 0) := by
  simp [isLeap]

/-- The closed form satisfies the year-by-year recurrence. -/
theorem daysBeforeYear_succ (y : Nat) (hy : 1 ≤ y) :
    daysBeforeYear (y + 1) = daysBeforeYear y + daysInYear y := by
  unfold daysBeforeYear leapsBefore daysInYear
  by_cases h : isLeap y = true
  · rw [if_pos h]
    rcases (isLeap_iff y).mp h with ⟨h4, h100⟩ | h400 <;> omega
  · rw [if_neg h]
    have h2 := (isLeap_iff y).not.mp h
    push_neg at h2
    rcases h2 with ⟨ha, hb⟩
    by_cases h4 : y % 4 = 0
    · have h100 := ha h4
      omega
    · omega

/-- The noon-anchored +7-day computation is plain +7 on day numbers. -/
theorem add7KstSafe_eq (d : Nat) : add7KstSafe d = d + 7 := by
  unfold add7KstSafe; omega

/-- Shifting the date by 7 days shifts the instant by 7 days of ms. -/
theorem kstToUtcISO_add7 (d : Nat) (t : TimeHM) :
    kstToUtcISO (add7KstSafe d) t = kstToUtcISO d t + 604800000 := by
  rw [add7KstSafe_eq]
  unfold kstToUtcISO
  push_cast
  ring

theorem mSumFrom_snoc (y : Nat) :
    ∀ (k m : Nat), mSumFrom y m (k + 1) = mSumFrom y m k + daysInMonth y (m + k) := by
  intro k
  induction k with
  | zero => intro m; simp [mSumFrom]
  | succ k ih =>
    intro m
    have h1 : mSumFrom y m (k + 1 + 1) = daysInMonth y m + mSumFrom y (m + 1) (k + 1) := rfl
    have h2 : mSumFrom y m (k + 1) = daysInMonth y m + mSumFrom y (m + 1) k := rfl
    rw [h1, h2, ih (m + 1)]
    have h3 : m + 1 + k = m + (k + 1) := by omega
    rw [h3]
    omega

theorem daysBeforeMonth_eq_mSumFrom (y : Nat) :
    ∀ (m : Nat), 1 ≤ m → daysBeforeMonth y m = mSumFrom y 1 (m - 1) := by
  intro m
  induction m with
  | zero => intro h; omega
  | succ m ih =>
    intro _
    by_cases hm : m = 0
    · subst hm; simp [daysBeforeMonth, mSumFrom]
    · have h1 : 1 ≤ m := by omega
      rw [daysBeforeMonth, if_neg hm, ih h1]
      have h2 : m + 1 - 1 = (m - 1) + 1 := by omega
      rw [h2, mSumFrom_snoc]
      have h3 : 1 + (m - 1) = m := by omega
      rw [h3]

theorem monthGo_shift (y : Nat) :
    ∀ (k f m n : Nat), monthGo y (k + f) m (mSumFrom y m k + n) = monthGo y f (m + k) n := by
  intro k
  induction k with
  | zero => intro f m n; simp [mSumFrom]
  | succ k ih =>
    intro f m n
    have hfuel : k + 1 + f = (k + f) + 1 := by omega
    rw [hfuel, mSumFrom]
    rw [monthGo]
    rw [if_neg (by omega)]
    have harg : daysInMonth y m + mSumFrom y (m + 1) k + n - daysInMonth y m
        = mSumFrom y (m + 1) k + n := by omega
    rw [harg, ih f (m + 1) n]
    have hm : m + 1 + k = m + (k + 1) := by omega
    rw [hm]

theorem ySumFrom_snoc :
    ∀ (k y : Nat), ySumFrom y (k + 1) = ySumFrom y k + daysInYear (y + k) := by
  intro k
  induction k with
  | zero => intro y; simp [ySumFrom]
  | succ k ih =>
    intro y
    have h1 : ySumFrom y (k + 1 + 1) = daysInYear y + ySumFrom (y + 1) (k + 1) := rfl
    have h2 : ySumFrom y (k + 1) = daysInYear y + ySumFrom (y + 1) k := rfl
    rw [h1, h2, ih (y + 1)]
    have h3 : y + 1 + k = y + (k + 1) := by omega
    rw [h3]
    omega

theorem daysBeforeYear_eq_ySumFrom :
    ∀ (y : Nat), 1 ≤ y → daysBeforeYear y = ySumFrom 1 (y - 1) := by
  intro y
  induction y with
  | zero => intro h; omega
  | succ y ih =>
    intro _
    by_cases hy : y = 0
    · subst hy; simp [ySumFrom]; unfold daysBeforeYear leapsBefore; simp
    · have h1 : 1 ≤ y := by omega
      rw [daysBeforeYear_succ y h1, ih h1]
      have h2 : y + 1 - 1 = (y - 1) + 1 := by omega
      rw [h2, ySumFrom_snoc]
      have h3 : 1 + (y - 1) = y := by omega
      rw [h3]

theorem yearPeel_shift :
    ∀ (k f y n : Nat), yearPeel (k + f) y (ySumFrom y k + n) = yearPeel f (y + k) n := by
  intro k
  induction k with
  | zero => intro f y n; simp [ySumFrom]
  | succ k ih =>
    intro f y n
    have hfuel : k + 1 + f = (k + f) + 1 := by omega
    rw [hfuel, ySumFrom]
    rw [yearPeel]
    rw [if_neg (by omega)]
    have harg : daysInYear y + ySumFrom (y + 1) k + n - daysInYear y
        = ySumFrom (y + 1) k + n := by omega
    rw [harg, ih f (y + 1) n]
    have hy : y + 1 + k = y + (k + 1) := by omega
    rw [hy]

theorem yearPeel400_shift :
    ∀ (k f y n : Nat), yearPeel400 (k + f) y (146097 * k + n) = yearPeel400 f (y + 400 * k) n := by
  intro k
  induction k with
  | zero => intro f y n; simp
  | succ k ih =>
    intro f y n
    have hfuel : k + 1 + f = (k + f) + 1 := by omega
    rw [hfuel]
    rw [yearPeel400]
    rw [if_neg (by omega)]
    have harg : 146097 * (k + 1) + n - 146097 = 146097 * k + n := by omega
    rw [harg, ih f (y + 400) n]
    have hy : y + 400 + 400 * k = y + 400 * (k + 1) := by omega
    rw [hy]

/-- One whole 400-year window starting at year 1 boundary has exactly
146097 days per cycle. -/
theorem daysBeforeYear_cycle (q : Nat) :
    daysBeforeYear (1 + 400 * q) = 146097 * q := by
  unfold daysBeforeYear leapsBefore
  omega

theorem daysBeforeYear_mono {a b : Nat} (h : a ≤ b) :
    daysBeforeYear a ≤ daysBeforeYear b := by
  unfold daysBeforeYear leapsBefore
  omega

theorem ySumFrom_eq_dBY :
    ∀ (k y : Nat), 1 ≤ y → ySumFrom y k = daysBeforeYear (y + k) - daysBeforeYear y := by
  intro k
  induction k with
  | zero => intro y hy; simp [ySumFrom]
  | succ k ih =>
    intro y hy
    rw [ySumFrom_snoc, ih y hy]
    have h1 : y + (k + 1) = (y + k) + 1 := by omega
    rw [h1, daysBeforeYear_succ (y + k) (by omega)]
    have h2 : daysBeforeYear y ≤ daysBeforeYear (y + k) := daysBeforeYear_mono (by omega)
    omega

theorem daysBeforeMonth_succ (y m : Nat) (hm : 1 ≤ m) :
    daysBeforeMonth y (m + 1) = daysBeforeMonth y m + daysInMonth y m := by
  rw [daysBeforeMonth]
  rw [if_neg (by omega)]

theorem daysBeforeMonth_13 (y : Nat) : daysBeforeMonth y 13 = daysInYear y := by
  cases h : isLeap y <;>
    simp [daysBeforeMonth, daysInMonth, daysInYear, h]

theorem daysBeforeMonth_add_le (y : Nat) :
    ∀ (k m : Nat), 1 ≤ m → 1 ≤ k → m + k = 13 →
      daysBeforeMonth y m + daysInMonth y m ≤ daysInYear y := by
  intro k
  induction k with
  | zero => intro m _ hk; omega
  | succ k ih =>
    intro m hm _ hmk
    by_cases hk : k = 0
    · subst hk
      have hm12 : m = 12 := by omega
      subst hm12
      rw [← daysBeforeMonth_succ y 12 (by omega), daysBeforeMonth_13]
    · have h1 := ih (m + 1) (by omega) (by omega) (by omega)
      rw [← daysBeforeMonth_succ y m hm]
      have h2 := daysBeforeMonth_succ y (m + 1) (by omega)
      omega

/-- Day-of-year of a valid date is below the year length. -/
theorem doy_lt_daysInYear (y m d : Nat) (hm1 : 1 ≤ m) (hm2 : m ≤ 12)
    (hd1 : 1 ≤ d) (hd2 : d ≤ daysInMonth y m) :
    daysBeforeMonth y m + (d - 1) < daysInYear y := by
  have h := daysBeforeMonth_add_le y (13 - m) m hm1 (by omega) (by omega)
  omega

/-- The month decomposition inverts `daysBeforeMonth + (day-1)`. -/
theorem monthDecomp_eq (y m d : Nat) (hm1 : 1 ≤ m) (hm2 : m ≤ 12)
    (hd1 : 1 ≤ d) (hd2 : d ≤ daysInMonth y m) :
    monthDecomp y (daysBeforeMonth y m + (d - 1)) = ⟨y, m, d⟩ := by
  unfold monthDecomp
  rw [daysBeforeMonth_eq_mSumFrom y m hm1]
  have h12 : (12 : Nat) = (m - 1) + (13 - m) := by omega
  rw [h12, monthGo_shift y (m - 1) (13 - m) 1 (d - 1)]
  have hm0 : 1 + (m - 1) = m := by omega
  rw [hm0]
  have hf : 13 - m = (12 - m) + 1 := by omega
  rw [hf, monthGo]
  rw [if_pos (by omega)]
  have hd : d - 1 + 1 = d := by omega
  rw [hd]

/-- `ofDayNumber` inverts `toDayNumber` on valid civil dates. -/
theorem ofDayNumber_toDayNumber (dv : CivilDate) (h : ValidDate dv) :
    ofDayNumber (toDayNumber dv) = dv := by
  obtain ⟨hy1, hy2, hm1, hm2, hd1, hd2⟩ := h
  obtain ⟨Y, m, d⟩ := dv
  simp only at hy1 hy2 hm1 hm2 hd1 hd2
  have hY1 : 1 ≤ Y := by omega
  set r : Nat := daysBeforeMonth Y m + (d - 1) with hr
  have hrlt : r < daysInYear Y := doy_lt_daysInYear Y m d hm1 hm2 hd1 hd2
  have hn0 : toDayNumber ⟨Y, m, d⟩ = daysBeforeYear Y + r := by
    unfold toDayNumber
    dsimp only
    omega
  set n0 : Nat := daysBeforeYear Y + r with hn0def
  rw [hn0]
  unfold ofDayNumber
  set q : Nat := n0 / 146097 with hq
  set n2 : Nat := n0 % 146097 with hn2
  have hsplit : n0 = 146097 * q + n2 := by
    rw [hq, hn2]; exact (Nat.div_add_mod n0 146097).symm
  have hn2lt : n2 < 146097 := by rw [hn2]; exact Nat.mod_lt _ (by omega)
  have hpeel400 : yearPeel400 (n0 / 146097 + 1) 1 n0 = (1 + 400 * q, n2) := by
    have hfuel : n0 / 146097 + 1 = q + 1 := by rw [hq]
    rw [hfuel]
    conv_lhs => rw [hsplit]
    rw [yearPeel400_shift q 1 1 n2, yearPeel400]
    rw [if_pos hn2lt]
  rw [hpeel400]
  set y0 : Nat := 1 + 400 * q with hy0def
  have hy0 : daysBeforeYear y0 = 146097 * q := daysBeforeYear_cycle q
  have hdBYy0_le : daysBeforeYear y0 ≤ n0 := by
    rw [hy0]; omega
  have hn0_lt : n0 < daysBeforeYear (Y + 1) := by
    rw [daysBeforeYear_succ Y hY1]; omega
  have hy0Y : y0 ≤ Y := by
    by_contra hcon
    have h2 : Y + 1 ≤ y0 := by omega
    have h3 := daysBeforeYear_mono h2
    omega
  have hn0_lt2 : n0 < daysBeforeYear (y0 + 400) := by
    have h4 : y0 + 400 = 1 + 400 * (q + 1) := by omega
    rw [h4, daysBeforeYear_cycle (q + 1)]
    omega
  have hYlt : Y < y0 + 400 := by
    by_contra hcon
    have h2 : daysBeforeYear (y0 + 400) ≤ daysBeforeYear Y := daysBeforeYear_mono (by omega)
    omega
  set k : Nat := Y - y0 with hk
  have hn2eq : n2 = ySumFrom y0 k + r := by
    have h5 : ySumFrom y0 k = daysBeforeYear Y - daysBeforeYear y0 := by
      rw [ySumFrom_eq_dBY k y0 (by omega)]
      have h6 : y0 + k = Y := by omega
      rw [h6]
    have h7 : daysBeforeYear y0 ≤ daysBeforeYear Y := daysBeforeYear_mono hy0Y
    omega
  have h500 : (500 : Nat) = k + (499 - k + 1) := by omega
  rw [hn2eq, h500, yearPeel_shift k (499 - k + 1) y0 r]
  have hYeq : y0 + k = Y := by omega
  rw [hYeq, yearPeel]
  rw [if_pos hrlt]
  rw [hr]
  exact monthDecomp_eq Y m d hm1 hm2 hd1 hd2

/-- Full converter round trip: decomposing the instant produced from a valid
civil date and valid time-of-day returns exactly that date and time. -/
theorem utcISOToKst_kstToUtcISOCivil (d : CivilDate) (t : TimeHM)
    (hd : ValidDate d) (ht : ValidTime t) :
    utcISOToKst (kstToUtcISOCivil d t) = (d, t) := by
  obtain ⟨hhh, hmm⟩ := ht
  have hkst : kstToUtcISOCivil d t + KST_OFFSET_MIN * 60000
      = ((toDayNumber d * 86400000 + (t.hh * 3600000 + t.mm * 60000) : Nat) : Int) := by
    unfold kstToUtcISOCivil kstToUtcISO KST_OFFSET_MIN
    push_cast
    ring
  unfold utcISOToKst
  rw [hkst]
  set A : Nat := toDayNumber d * 86400000 + (t.hh * 3600000 + t.mm * 60000) with hA
  have h1 : (((A : Int)) / 86400000).toNat = toDayNumber d := by
    rw [show ((86400000 : Int)) = ((86400000 : Nat) : Int) from rfl]
    rw [← Int.ofNat_ediv, Int.toNat_ofNat]
    omega
  have h2 : (((A : Int)) % 86400000).toNat = t.hh * 3600000 + t.mm * 60000 := by
    rw [show ((86400000 : Int)) = ((86400000 : Nat) : Int) from rfl]
    rw [← Int.ofNat_emod, Int.toNat_ofNat]
    omega
  rw [h1, h2]
  have h3 : (t.hh * 3600000 + t.mm * 60000) / 3600000 = t.hh := by omega
  have h4 : (t.hh * 3600000 + t.mm * 60000) % 3600000 / 60000 = t.mm := by omega
  rw [h3, h4]
  rw [ofDayNumber_toDayNumber d hd]

/-! ### Stable-sort lemmas (generic) -/

section SortLemmas

variable {α : Type u_1} (r : α → α → Prop) [DecidableRel r]

theorem orderedInsert_of_forall_le {a : α} {l : List α} (h : ∀ y ∈ l, r a y) :
    l.orderedInsert r a = a :: l := by
  cases l with
  | nil => rfl
  | cons b t =>
    rw [List.orderedInsert, if_pos (h b (by simp))]

theorem orderedInsert_cons_of_not_le {a b : α} (hab : ¬ r a b) (l : List α) :
    (b :: l).orderedInsert r a = b :: l.orderedInsert r a := by
  rw [List.orderedInsert, if_neg hab]

/-- Filtering commutes with inserting into a sorted list: the inserted
element is either kept in place or dropped. -/
theorem filter_orderedInsert [IsTrans α r] (p : α → Bool) (a : α) :
    ∀ (l : List α), l.Sorted r →
      (l.orderedInsert r a).filter p =
        if p a then (l.filter p).orderedInsert r a else l.filter p := by
  intro l
  induction l with
  | nil =>
    intro _
    cases hpa : p a <;> simp [List.orderedInsert, hpa]
  | cons b t ih =>
    intro hs
    have hst : t.Sorted r := hs.of_cons
    have hrec := ih hst
    by_cases hab : r a b
    · rw [List.orderedInsert, if_pos hab]
      cases hpa : p a
      · rw [if_neg (by simp)]
        simp [List.filter_cons, hpa]
      · rw [if_pos rfl]
        have hall : ∀ y ∈ (b :: t).filter p, r a y := by
          intro y hy
          have hyy := List.mem_of_mem_filter hy
          rcases List.mem_cons.mp hyy with h1 | h1
          · exact h1 ▸ hab
          · exact Trans.trans hab (List.rel_of_sorted_cons hs y h1)
        rw [orderedInsert_of_forall_le r hall]
        simp [List.filter_cons, hpa]
    · rw [orderedInsert_cons_of_not_le r hab]
      cases hpa : p a
      · rw [hpa] at hrec
        rw [if_neg (by simp)] at hrec
        rw [if_neg (by simp)]
        cases hpb : p b <;> simp [List.filter_cons, hpa, hpb, hrec]
      · rw [hpa] at hrec
        rw [if_pos rfl] at hrec
        rw [if_pos rfl]
        cases hpb : p b
        · simp [List.filter_cons, hpa, hpb, hrec]
        · rw [List.filter_cons, List.filter_cons, if_pos hpb, if_pos hpb,
            orderedInsert_cons_of_not_le r hab, hrec]

/-- A stable sort commutes with `filter`. -/
theorem filter_insertionSort [IsTotal α r] [IsTrans α r] (p : α → Bool) (l : List α) :
    (l.insertionSort r).filter p = (l.filter p).insertionSort r := by
  induction l with
  | nil => rfl
  | cons a t ih =>
    rw [List.insertionSort,
      filter_orderedInsert r p a _ (List.sorted_insertionSort r t)]
    cases hpa : p a <;> simp [List.filter_cons, hpa, ih, List.insertionSort]

/-- Searching a reversed list is taking the last match. -/
theorem reverse_find?_eq_getLast?_filter (p : α → Bool) (l : List α) :
    l.reverse.find? p = (l.filter p).getLast? := by
  induction l with
  | nil => rfl
  | cons a t ih =>
    rw [List.reverse_cons, List.find?_append, ih]
    cases hpa : p a
    · simp [List.find?, hpa, List.filter_cons]
    · simp only [List.find?, hpa, List.filter_cons, cond_true]
      cases hft : t.filter p with
      | nil => simp
      | cons b s =>
        have h1 : (b :: s).getLast?.isSome := by
          rw [List.getLast?_isSome]
          simp
        cases hls : (b :: s).getLast? with
        | none => rw [hls] at h1; simp at h1
        | some x => simp [hls]

end SortLemmas

section Grouping

variable {α : Type u_1} {κ : Type u_2} [DecidableEq κ] (f : α → κ)

theorem keyListBy_nil : keyListBy f ([] : List α) = [] := rfl

theorem keyListBy_cons (a : α) (l : List α) :
    keyListBy f (a :: l) = f a :: (keyListBy f l).filter (fun k => !decide (k = f a)) := rfl

theorem mem_keyListBy {k : κ} :
    ∀ {l : List α}, k ∈ keyListBy f l ↔ ∃ a ∈ l, f a = k := by
  intro l
  induction l with
  | nil => rw [keyListBy_nil]; simp
  | cons a t ih =>
    simp only [keyListBy, List.mem_cons, List.mem_filter, ih]
    constructor
    · intro h
      rcases h with h | ⟨⟨b, hb, hbk⟩, _⟩
      · exact ⟨a, Or.inl rfl, h.symm⟩
      · exact ⟨b, Or.inr hb, hbk⟩
    · intro ⟨b, hb, hbk⟩
      rcases hb with hb | hb
      · exact Or.inl (hb ▸ hbk.symm)
      · by_cases hk : k = f a
        · exact Or.inl hk
        · exact Or.inr ⟨⟨b, hb, hbk⟩, by simpa using hk⟩

theorem keyListBy_nodup : ∀ (l : List α), (keyListBy f l).Nodup := by
  intro l
  induction l with
  | nil => rw [keyListBy_nil]; exact List.nodup_nil
  | cons a t ih =>
    rw [keyListBy_cons]
    refine List.Nodup.cons ?_ (ih.filter _)
    intro hmem
    have := (List.mem_filter.mp hmem).2
    simp at this

theorem groupPairsBy_fst (l : List α) :
    (groupPairsBy f l).map Prod.fst = keyListBy f l := by
  unfold groupPairsBy
  rw [List.map_map]
  simp [Function.comp_def]

theorem mem_groupPairsBy {kg : κ × List α} {l : List α}
    (h : kg ∈ groupPairsBy f l) :
    kg.1 ∈ keyListBy f l ∧ kg.2 = l.filter (fun e => decide (f e = kg.1)) := by
  unfold groupPairsBy at h
  rcases List.mem_map.mp h with ⟨k, hk, hkg⟩
  rw [← hkg]
  exact ⟨hk, rfl⟩

theorem mem_of_mem_group {kg : κ × List α} {l : List α} {e : α}
    (h : kg ∈ groupPairsBy f l) (he : e ∈ kg.2) : e ∈ l := by
  rcases mem_groupPairsBy f h with ⟨_, h2⟩
  rw [h2] at he
  exact List.mem_of_mem_filter he

theorem key_of_mem_group {kg : κ × List α} {l : List α} {e : α}
    (h : kg ∈ groupPairsBy f l) (he : e ∈ kg.2) : f e = kg.1 := by
  rcases mem_groupPairsBy f h with ⟨_, h2⟩
  rw [h2] at he
  simpa using (List.mem_filter.mp he).2

/-- Key list of an append: the keys of `l`, then the new keys of `l2`. -/
theorem keyListBy_append :
    ∀ (l l2 : List α), keyListBy f (l ++ l2)
      = keyListBy f l ++ (keyListBy f l2).filter (fun k => !decide (k ∈ l.map f)) := by
  intro l
  induction l with
  | nil =>
    intro l2
    rw [List.nil_append, keyListBy_nil, List.nil_append]
    simp
  | cons a t ih =>
    intro l2
    rw [List.cons_append, keyListBy_cons, keyListBy_cons, ih l2, List.filter_append,
      List.filter_filter]
    congr 2
    apply List.filter_congr
    intro k _
    by_cases h1 : k = f a <;> by_cases h2 : k ∈ t.map f <;>
      simp [h1, h2, List.mem_cons]

/-- Appending elements whose keys already occur leaves the key list
unchanged. -/
theorem keyListBy_append_of_subset (l l2 : List α)
    (h : ∀ a ∈ l2, f a ∈ keyListBy f l) :
    keyListBy f (l ++ l2) = keyListBy f l := by
  rw [keyListBy_append f l l2]
  have hnil : (keyListBy f l2).filter (fun k => !decide (k ∈ l.map f)) = [] := by
    rw [List.filter_eq_nil_iff]
    intro k hk
    rcases (mem_keyListBy f).mp hk with ⟨b, hb, hbk⟩
    have h1 := h b hb
    rcases (mem_keyListBy f).mp h1 with ⟨c, hc, hck⟩
    have h2 : k ∈ l.map f := by
      rw [hbk] at hck
      exact List.mem_map.mpr ⟨c, hc, hck⟩
    simp [h2]
  rw [hnil, List.append_nil]

end Grouping

theorem length_filter_ge_succ {l : List Int} {c : Int} (hc : c ∈ l) :
    (l.filter (fun x => decide (c + 1 ≤ x))).length
      < (l.filter (fun x => decide (c ≤ x))).length := by
  induction l with
  | nil => simp at hc
  | cons a t ih =>
    have hmono : (t.filter (fun x => decide (c + 1 ≤ x))).length
        ≤ (t.filter (fun x => decide (c ≤ x))).length := by
      apply List.Sublist.length_le
      apply List.monotone_filter_right
      intro x hx
      simp only [decide_eq_true_eq] at hx ⊢
      omega
    rcases List.mem_cons.mp hc with h1 | h1
    · subst h1
      rw [List.filter_cons, List.filter_cons]
      rw [if_neg (by simp), if_pos (by simp)]
      simpa using Nat.lt_succ_of_le hmono
    · have := ih h1
      rw [List.filter_cons, List.filter_cons]
      by_cases h2 : c + 1 ≤ a
      · rw [if_pos (by simpa using h2), if_pos (by simp; omega)]
        simpa using this
      · rw [if_neg (by simpa using h2)]
        by_cases h3 : c ≤ a
        · rw [if_pos (by simpa using h3)]
          simp only [List.length_cons]
          omega
        · rw [if_neg (by simpa using h3)]
          exact this

theorem makeIdGo_not_mem (existing : List Int) :
    ∀ (fuel : Nat) (c : Int),
      (existing.filter (fun x => decide (c ≤ x))).length < fuel →
      makeIdGo existing fuel c ∉ existing := by
  intro fuel
  induction fuel with
  | zero => intro c h; omega
  | succ f ih =>
    intro c h
    rw [makeIdGo]
    by_cases hc : c ∈ existing
    · rw [if_pos hc]
      apply ih
      have := length_filter_ge_succ hc
      omega
    · rw [if_neg hc]
      exact hc

/-- The generated id is fresh: it is none of the existing ids. -/
theorem makeId_not_mem (now : Int) (l : List EventItem) :
    makeId now l ∉ l.map (fun e => e.id) := by
  apply makeIdGo_not_mem
  calc ((l.map (fun e => e.id)).filter (fun x => decide (now ≤ x))).length
      ≤ (l.map (fun e => e.id)).length := List.length_filter_le _ _
    _ = l.length := List.length_map _ _
    _ < l.length + 1 := Nat.lt_succ_self _

/-! ### Facts about the engine used by the idempotence proof -/

theorem startedByNow_of_time (now : Int) (e : EventItem) (t : TimeHM)
    (h : e.time = some t) :
    startedByNow now e = decide (kstToUtcISO e.date t ≤ now) := by
  unfold startedByNow
  rw [h]

theorem prunePred_of_time (now : Int) (e : EventItem) (t : TimeHM)
    (h : e.time = some t) :
    prunePred now e = decide (now - 259200000 ≤ kstToUtcISO e.date t) := by
  unfold prunePred
  rw [h]

theorem startedByNow_exists (now : Int) (e : EventItem)
    (h : startedByNow now e = true) :
    ∃ t, e.time = some t ∧ kstToUtcISO e.date t ≤ now := by
  cases ht : e.time with
  | none => unfold startedByNow at h; rw [ht] at h; simp at h
  | some t =>
    rw [startedByNow_of_time now e t ht] at h
    exact ⟨t, rfl, of_decide_eq_true h⟩

theorem recentlyPassed_mem (now : Int) (g : List EventItem) (rp : EventItem)
    (h : recentlyPassed now g = some rp) :
    rp ∈ g ∧ startedByNow now rp = true := by
  unfold recentlyPassed at h
  constructor
  · have h1 := List.mem_of_find?_eq_some h
    rw [List.mem_reverse] at h1
    exact (List.perm_insertionSort evLe g).mem_iff.mp h1
  · exact List.find?_some h

/-- Appending one not-yet-started event does not change the chosen
"most recently begun" member (stability of the sort). -/
theorem recentlyPassed_append_single (now : Int) (g : List EventItem)
    (a : EventItem) (ha : startedByNow now a = false) :
    recentlyPassed now (g ++ [a]) = recentlyPassed now g := by
  unfold recentlyPassed
  rw [reverse_find?_eq_getLast?_filter, reverse_find?_eq_getLast?_filter,
    filter_insertionSort, filter_insertionSort, List.filter_append]
  simp [List.filter_cons, ha]

/-- Shape of a successful per-group generation decision. -/
theorem genCore_some_spec (now : Int) (g : List EventItem) (c : EventItem)
    (h : genCore now g = some c) :
    ∃ rp, recentlyPassed now g = some rp ∧ rp ∈ g ∧ startedByNow now rp = true ∧
      g.any (fun x => x.repeatWeekly) = true ∧
      existsNext g (add7KstSafe rp.date) rp.time = false ∧
      c = { rp with
            date := add7KstSafe rp.date,
            cancelRequests := [],
            notifiedToAll := false,
            openForApplications := decide (rp.participants.length < CAPACITY),
            repeatWeekly := true } := by
  unfold genCore at h
  split at h
  next h1 =>
    split at h
    next h2 => simp at h
    next rp h2 =>
      split at h
      next h3 => simp at h
      next h3 =>
        have hmem := recentlyPassed_mem now g rp h2
        have h3f : existsNext g (add7KstSafe rp.date) rp.time = false := by
          simpa using h3
        refine ⟨rp, h2, hmem.1, hmem.2, h1, h3f, ?_⟩
        simpa using h.symm
  next h1 => simp at h

/-- The generated occurrence of a group survives pruning and has not yet
started: its start is between 4 and 7 days in the future. -/
theorem genCore_new_item_facts (now : Int) (g : List EventItem) (c : EventItem)
    (idv : Int) (hp : ∀ e ∈ g, prunePred now e = true)
    (h : genCore now g = some c) :
    prunePred now { c with id := idv } = true ∧
      startedByNow now { c with id := idv } = false := by
  obtain ⟨rp, hrp, hmem, hstart, hrep, hex, hc⟩ := genCore_some_spec now g c h
  obtain ⟨t, ht, hle⟩ := startedByNow_exists now rp hstart
  have hitime : ({ c with id := idv } : EventItem).time = some t := by
    rw [hc]; exact ht
  have hidate : ({ c with id := idv } : EventItem).date = add7KstSafe rp.date := by
    rw [hc]
  have hstarti : kstToUtcISO ({ c with id := idv } : EventItem).date t
      = kstToUtcISO rp.date t + 604800000 := by
    rw [hidate, kstToUtcISO_add7]
  have hprp : now - 259200000 ≤ kstToUtcISO rp.date t := by
    have := hp rp hmem
    rw [prunePred_of_time now rp t ht] at this
    exact of_decide_eq_true this
  constructor
  · rw [prunePred_of_time now _ t hitime, hstarti]
    apply decide_eq_true
    omega
  · rw [startedByNow_of_time now _ t hitime, hstarti]
    apply decide_eq_false
    omega

/-- A second generation pass over a group that just generated its next
occurrence generates nothing. -/
theorem genCore_append_new (now : Int) (g : List EventItem) (c : EventItem)
    (idv : Int) (hp : ∀ e ∈ g, prunePred now e = true)
    (h : genCore now g = some c) :
    genCore now (g ++ [{ c with id := idv }]) = none := by
  obtain ⟨rp, hrp, hmem, hstart, hrep, hex, hc⟩ := genCore_some_spec now g c h
  obtain ⟨hpruned, hnotstarted⟩ := genCore_new_item_facts now g c idv hp h
  have hany : (g ++ [{ c with id := idv }]).any (fun x => x.repeatWeekly) = true := by
    rw [List.any_append, hrep]
    simp
  have hrp2 : recentlyPassed now (g ++ [{ c with id := idv }]) = some rp := by
    rw [recentlyPassed_append_single now g _ hnotstarted, hrp]
  have hidate : ({ c with id := idv } : EventItem).date = add7KstSafe rp.date := by
    rw [hc]
  have hitime : ({ c with id := idv } : EventItem).time = rp.time := by
    rw [hc]
  have hex2 : existsNext (g ++ [{ c with id := idv }]) (add7KstSafe rp.date) rp.time
      = true := by
    unfold existsNext
    rw [List.any_append]
    apply Bool.or_eq_true_iff.mpr
    apply Or.inr
    simp [hidate, hitime]
    refine ⟨?_, ?_⟩ <;> rw [hc]
  unfold genCore
  rw [if_pos hany, hrp2]
  change (if existsNext (g ++ [{ c with id := idv }]) (add7KstSafe rp.date) rp.time = true
    then none else _) = none
  rw [if_pos hex2]

theorem genCollect_eq_nil (now : Int) :
    ∀ (gs : List (String × List EventItem)) (list : List EventItem),
      (∀ kg ∈ gs, genCore now kg.2 = none) → genCollect now gs list = [] := by
  intro gs
  induction gs with
  | nil => intro list h; rfl
  | cons kg gs ih =>
    intro list h
    have h0 := h kg (by simp)
    rw [genCollect, h0]
    exact ih list (fun kg2 hm => h kg2 (by simp [hm]))

theorem genCollect_facts (now : Int) :
    ∀ (gs : List (String × List EventItem)) (list : List EventItem),
      ∀ i ∈ genCollect now gs list,
        ∃ kg ∈ gs, ∃ c, genCore now kg.2 = some c ∧ ∃ idv, i = { c with id := idv } := by
  intro gs
  induction gs with
  | nil => intro list i hi; simp [genCollect] at hi
  | cons kg gs ih =>
    intro list i hi
    rw [genCollect] at hi
    cases hgc : genCore now kg.2 with
    | none =>
      rw [hgc] at hi
      obtain ⟨kg2, hkg2, c, hc, idv, hidv⟩ := ih list i hi
      exact ⟨kg2, by simp [hkg2], c, hc, idv, hidv⟩
    | some c =>
      rw [hgc] at hi
      rcases List.mem_cons.mp hi with h1 | h1
      · exact ⟨kg, by simp, c, hgc, makeId now list, h1⟩
      · obtain ⟨kg2, hkg2, c2, hc2, idv, hidv⟩ := ih _ i h1
        exact ⟨kg2, by simp [hkg2], c2, hc2, idv, hidv⟩

/-- keyOf ignores id, date and the other regenerated fields. -/
theorem keyOf_update (rp : EventItem) (d2 : Nat) (idv : Int) (o2 n2 r2 : Bool) :
    keyOf { rp with
      id := idv,
      date := d2,
      cancelRequests := [],
      openForApplications := o2,
      notifiedToAll := n2,
      repeatWeekly := r2 } = keyOf rp := rfl

theorem genCore_keyOf (now : Int) (g : List EventItem) (c : EventItem)
    (h : genCore now g = some c) (k : String) (hk : ∀ e ∈ g, keyOf e = k) :
    keyOf c = k := by
  obtain ⟨rp, _, hmem, _, _, _, hc⟩ := genCore_some_spec now g c h
  rw [hc]
  show keyOf rp = k
  exact hk rp hmem

/-- In the collected new occurrences, the ones with a given group's key are
exactly that group's decision (with some fresh id). -/
theorem genCollect_filter_key (now : Int) :
    ∀ (gs : List (String × List EventItem)) (list : List EventItem) (k : String)
      (hwf : ∀ kg ∈ gs, ∀ e ∈ kg.2, keyOf e = kg.1)
      (hnd : (gs.map Prod.fst).Nodup)
      (g : List EventItem) (hmem : (k, g) ∈ gs),
      ∃ idv, (genCollect now gs list).filter (fun e => decide (keyOf e = k))
        = ((genCore now g).map (fun c => { c with id := idv })).toList := by
  intro gs
  induction gs with
  | nil => intro list k hwf hnd g hmem; simp at hmem
  | cons kg gs ih =>
    intro list k hwf hnd g hmem
    have hnd2 : (gs.map Prod.fst).Nodup := (List.nodup_cons.mp hnd).2
    have hnotin : kg.1 ∉ gs.map Prod.fst := (List.nodup_cons.mp hnd).1
    have hwf2 : ∀ kg2 ∈ gs, ∀ e ∈ kg2.2, keyOf e = kg2.1 :=
      fun kg2 hm => hwf kg2 (by simp [hm])
    have htailkeys : ∀ i, (∀ list2, i ∈ genCollect now gs list2 → keyOf i ∈ gs.map Prod.fst) := by
      intro i list2 hi
      obtain ⟨kg2, hkg2, c2, hc2, idv2, hidv2⟩ := genCollect_facts now gs list2 i hi
      have : keyOf c2 = kg2.1 := genCore_keyOf now kg2.2 c2 hc2 kg2.1 (hwf2 kg2 hkg2)
      have hkeyi : keyOf i = kg2.1 := by
        rw [hidv2]
        show keyOf c2 = kg2.1
        exact this
      rw [hkeyi]
      exact List.mem_map.mpr ⟨kg2, hkg2, rfl⟩
    rcases List.mem_cons.mp hmem with hhead | htail
    · -- the asked group is the head group
      have hk1 : kg.1 = k := by rw [← hhead]
      have hg : kg.2 = g := by rw [← hhead]
      rw [genCollect]
      cases hgc : genCore now kg.2 with
      | none =>
        refine ⟨0, ?_⟩
        rw [hg] at hgc
        rw [hgc]
        show (genCollect now gs list).filter (fun e => decide (keyOf e = k)) = []
        rw [List.filter_eq_nil_iff]
        intro i hi
        have := htailkeys i list hi
        rw [hk1] at hnotin
        simp only [decide_eq_true_eq]
        intro hik
        rw [hik] at this
        exact hnotin this
      | some c =>
        refine ⟨makeId now list, ?_⟩
        rw [hg] at hgc
        rw [hgc]
        rw [List.filter_cons]
        have hkeyc : keyOf { c with id := makeId now list } = k := by
          show keyOf c = k
          exact genCore_keyOf now g c hgc k (by rw [← hg, ← hk1]; exact hwf kg (by simp))
        rw [if_pos (by simp [hkeyc])]
        have hrest : (genCollect now gs (list ++ [{ c with id := makeId now list }])).filter
            (fun e => decide (keyOf e = k)) = [] := by
          rw [List.filter_eq_nil_iff]
          intro i hi
          have := htailkeys i _ hi
          rw [hk1] at hnotin
          simp only [decide_eq_true_eq]
          intro hik
          rw [hik] at this
          exact hnotin this
        rw [hrest]
        simp [Option.toList]
    · -- the asked group is in the tail
      have hkne : k ≠ kg.1 := by
        intro hkk
        apply hnotin
        rw [← hkk]
        exact List.mem_map.mpr ⟨(k, g), htail, rfl⟩
      rw [genCollect]
      cases hgc : genCore now kg.2 with
      | none => exact ih list k hwf2 hnd2 g htail
      | some c =>
        have hkeyc : keyOf { c with id := makeId now list } = kg.1 := by
          show keyOf c = kg.1
          exact genCore_keyOf now kg.2 c hgc kg.1 (hwf kg (by simp))
        rw [List.filter_cons]
        rw [if_neg (by simp [hkeyc]; exact fun hkk => hkne hkk.symm)]
        exact ih _ k hwf2 hnd2 g htail

/-- The recurrence transform is idempotent at a fixed instant. -/
theorem tick_idem (now : Int) (l : List EventItem) :
    tick now (tick now l) = tick now l := by
  set P : List EventItem := pruneEvents now l with hP
  have hPpred : ∀ e ∈ P, prunePred now e = true := by
    intro e he
    exact List.of_mem_filter he
  set gs : List (String × List EventItem) := groupByKey P with hgs
  have hwf : ∀ kg ∈ gs, ∀ e ∈ kg.2, keyOf e = kg.1 := by
    intro kg hkg e he
    exact key_of_mem_group keyOf hkg he
  have hmemP : ∀ kg ∈ gs, ∀ e ∈ kg.2, e ∈ P := by
    intro kg hkg e he
    exact mem_of_mem_group keyOf hkg he
  have hnd : (gs.map Prod.fst).Nodup := by
    rw [hgs]
    show ((groupPairsBy keyOf P).map Prod.fst).Nodup
    rw [groupPairsBy_fst]
    exact keyListBy_nodup keyOf P
  set news : List EventItem := genCollect now gs P with hnews
  have hnewfacts : ∀ i ∈ news, prunePred now i = true ∧ startedByNow now i = false ∧
      keyOf i ∈ P.map keyOf := by
    intro i hi
    obtain ⟨kg, hkg, c, hc, idv, hidv⟩ := genCollect_facts now gs P i hi
    have hpg : ∀ e ∈ kg.2, prunePred now e = true := by
      intro e he
      exact hPpred e (hmemP kg hkg e he)
    obtain ⟨hik, his⟩ := genCore_new_item_facts now kg.2 c idv hpg hc
    obtain ⟨rp, _, hrpmem, _, _, _, _⟩ := genCore_some_spec now kg.2 c hc
    have hkeyi : keyOf i = kg.1 := by
      rw [hidv]
      show keyOf c = kg.1
      exact genCore_keyOf now kg.2 c hc kg.1 (hwf kg hkg)
    refine ⟨by rw [hidv]; exact hik, by rw [hidv]; exact his, ?_⟩
    rw [hkeyi]
    rcases (mem_keyListBy keyOf).mp (mem_groupPairsBy keyOf hkg).1 with ⟨a, ha, hak⟩
    exact hak ▸ List.mem_map_of_mem keyOf ha
  have hG : tick now l = P ++ news := by
    rw [hnews, hgs, hP]
    rfl
  rw [hG]
  -- Step 1: a second prune removes nothing.
  have hprune : pruneEvents now (P ++ news) = P ++ news := by
    unfold pruneEvents
    rw [List.filter_eq_self]
    intro e he
    rcases List.mem_append.mp he with h1 | h1
    · exact hPpred e h1
    · exact (hnewfacts e h1).1
  -- Step 2: a second generation pass adds nothing.
  have hkeys : keyListBy keyOf (P ++ news) = keyListBy keyOf P := by
    apply keyListBy_append_of_subset
    intro i hi
    rcases List.mem_map.mp ((hnewfacts i hi).2.2) with ⟨a, ha, hak⟩
    exact (mem_keyListBy keyOf).mpr ⟨a, ha, hak⟩
  have hnone : ∀ kg ∈ groupByKey (P ++ news), genCore now kg.2 = none := by
    intro kg hkg
    obtain ⟨hkmem, hkfil⟩ := mem_groupPairsBy keyOf hkg
    rw [hkeys] at hkmem
    set k : String := kg.1 with hk
    set g : List EventItem := P.filter (fun e => decide (keyOf e = k)) with hgdef
    have hgin : (k, g) ∈ gs := by
      rw [hgs]
      exact List.mem_map.mpr ⟨k, hkmem, rfl⟩
    have hsplit : kg.2 = g ++ news.filter (fun e => decide (keyOf e = k)) := by
      rw [hkfil, List.filter_append]
    obtain ⟨idv, hflt⟩ := genCollect_filter_key now gs P k hwf hnd g hgin
    rw [← hnews] at hflt
    have hpg : ∀ e ∈ g, prunePred now e = true := by
      intro e he
      exact hPpred e (List.mem_of_mem_filter he)
    cases hgc : genCore now g with
    | none =>
      rw [hgc] at hflt
      have h2 : kg.2 = g := by
        rw [hsplit, hflt]
        show g ++ ([] : List EventItem) = g
        rw [List.append_nil]
      rw [h2, hgc]
    | some c =>
      rw [hgc] at hflt
      have h2 : kg.2 = g ++ [{ c with id := idv }] := by
        rw [hsplit, hflt]
        rfl
      rw [h2]
      exact genCore_append_new now g c idv hpg hgc
  show tick now (P ++ news) = P ++ news
  unfold tick
  rw [hprune]
  unfold genWeekly
  rw [genCollect_eq_nil now (groupByKey (P ++ news)) (P ++ news) hnone, List.append_nil]

/-- One application of the recurrence engine on the Saturday-Meetup pair:
the 2025-08-02 member is pruned, the 2025-08-09 member kept, and a fresh
2025-08-16 clone appended. -/
theorem tick_scenarioA (e1 e2 : EventItem)
    (h1t : e1.title = "Saturday Meetup") (h1time : e1.time = some ⟨10, 0⟩)
    (h1c : e1.category = "Saturday") (h1d : e1.date = toDayNumber ⟨2025, 8, 2⟩)
    (h1r : e1.repeatWeekly = true)
    (h2t : e2.title = "Saturday Meetup") (h2time : e2.time = some ⟨10, 0⟩)
    (h2c : e2.category = "Saturday") (h2d : e2.date = toDayNumber ⟨2025, 8, 9⟩)
    (h2r : e2.repeatWeekly = true) :
    tick scenarioNow [e1, e2] = [e2, { e2 with
        id := makeId scenarioNow [e2],
        date := toDayNumber ⟨2025, 8, 16⟩,
        cancelRequests := [],
        notifiedToAll := false,
        openForApplications := decide (e2.participants.length < CAPACITY),
        repeatWeekly := true }]
      ∧ makeId scenarioNow [e2] ≠ e2.id
      ∧ (tick scenarioNow [e1, e2]).map (fun e => e.date)
          = [toDayNumber ⟨2025, 8, 9⟩, toDayNumber ⟨2025, 8, 16⟩] := by
  have hp1 : prunePred scenarioNow e1 = false := by
    rw [prunePred_of_time scenarioNow e1 ⟨10, 0⟩ h1time, h1d]
    decide
  have hp2 : prunePred scenarioNow e2 = true := by
    rw [prunePred_of_time scenarioNow e2 ⟨10, 0⟩ h2time, h2d]
    decide
  have hprune : pruneEvents scenarioNow [e1, e2] = [e2] := by
    unfold pruneEvents
    simp [List.filter_cons, hp1, hp2]
  have hstarted2 : startedByNow scenarioNow e2 = true := by
    rw [startedByNow_of_time scenarioNow e2 ⟨10, 0⟩ h2time, h2d]
    decide
  have hkey : groupByKey [e2] = [(keyOf e2, [e2])] := by
    show groupPairsBy keyOf [e2] = _
    unfold groupPairsBy
    rw [keyListBy_cons, keyListBy_nil]
    simp
  have hrp : recentlyPassed scenarioNow [e2] = some e2 := by
    unfold recentlyPassed
    rw [show List.insertionSort evLe [e2] = [e2] from rfl]
    simp [List.find?, hstarted2]
  have hnext : add7KstSafe e2.date = toDayNumber ⟨2025, 8, 16⟩ := by
    rw [h2d, add7KstSafe_eq]
    decide
  have hdne : toDayNumber ⟨2025, 8, 9⟩ ≠ toDayNumber ⟨2025, 8, 16⟩ := by decide
  have hex : existsNext [e2] (add7KstSafe e2.date) e2.time = false := by
    unfold existsNext
    rw [hnext]
    simp only [List.any_cons, List.any_nil, Bool.or_false]
    rw [h2d]
    simp [hdne]
  have hrep2 : [e2].any (fun x => x.repeatWeekly) = true := by simp [h2r]
  have hgen : genCore scenarioNow [e2] = some { e2 with
      date := add7KstSafe e2.date, cancelRequests := [], notifiedToAll := false,
      openForApplications := decide (e2.participants.length < CAPACITY),
      repeatWeekly := true } := by
    unfold genCore
    rw [if_pos hrep2, hrp]
    change (if existsNext [e2] (add7KstSafe e2.date) e2.time = true
      then none else _) = _
    rw [if_neg (by rw [hex]; simp)]
  have hcol : genCollect scenarioNow (groupByKey [e2]) [e2] = [{ e2 with
      id := makeId scenarioNow [e2],
      date := add7KstSafe e2.date, cancelRequests := [], notifiedToAll := false,
      openForApplications := decide (e2.participants.length < CAPACITY),
      repeatWeekly := true }] := by
    rw [hkey, genCollect, hgen]
    rfl
  have hmain : tick scenarioNow [e1, e2] = [e2, { e2 with
      id := makeId scenarioNow [e2],
      date := toDayNumber ⟨2025, 8, 16⟩,
      cancelRequests := [], notifiedToAll := false,
      openForApplications := decide (e2.participants.length < CAPACITY),
      repeatWeekly := true }] := by
    unfold tick genWeekly
    rw [hprune, hcol, hnext]
    rfl
  have hid : makeId scenarioNow [e2] ≠ e2.id := by
    have h := makeId_not_mem scenarioNow [e2]
    simpa using h
  refine ⟨hmain, hid, ?_⟩
  rw [hmain]
  simp [h2d]

/-- The pending write left by a burst, from any starting pending write:
the last value whose serialization differs from lastSynced, else the
starting pending write. -/
theorem burst_foldl_spec {T : Type u_1} (jf : T → String) (ls : String) :
    ∀ (vs : List T) (p : Option T),
      vs.foldl (scheduleSave jf ls) p
        = ((vs.filter (fun v => !decide (jf v = ls))).getLast?).or p := by
  intro vs
  induction vs with
  | nil => intro p; simp
  | cons v vs ih =>
    intro p
    rw [List.foldl_cons, ih (scheduleSave jf ls p v), List.filter_cons]
    by_cases hv : jf v = ls
    · rw [scheduleSave, if_pos hv]
      simp [hv]
    · rw [scheduleSave, if_neg hv]
      rw [if_pos (by simp [hv])]
      cases hft : vs.filter (fun v2 => !decide (jf v2 = ls)) with
      | nil => simp
      | cons b s =>
        rw [List.getLast?_cons_cons]
        have h1 : (b :: s).getLast?.isSome := by
          rw [List.getLast?_isSome]
          simp
        cases hls : (b :: s).getLast? with
        | none => rw [hls] at h1; simp at h1
        | some x => simp [hls]

/-! ## Capacity and cancel-request invariants -/

theorem map_eq_self_of {α : Type u_1} {f : α → α} {l : List α}
    (h : ∀ x ∈ l, f x = x) : l.map f = l := by
  induction l with
  | nil => rfl
  | cons a t ih =>
    rw [List.map_cons, h a (by simp), ih (fun x hx => h x (by simp [hx]))]

theorem joinStep_ne (u : User) (evId : Int) (e : EventItem) (h : e.id ≠ evId) :
    joinStep u evId e = e := by
  unfold joinStep
  rw [if_pos h]

theorem joinStep_noop (u : User) (evId : Int) (e : EventItem)
    (h : isIn e u.id = true ∨ CAPACITY ≤ e.participants.length) :
    joinStep u evId e = e := by
  unfold joinStep
  by_cases hid : e.id ≠ evId
  · rw [if_pos hid]
  · rw [if_neg hid]
    have hcond : (isIn e u.id || !hasCapacity e) = true := by
      rcases h with h | h
      · simp [h]
      · have h2 : ¬ (e.participants.length < CAPACITY) := by omega
        simp [hasCapacity, h2]
    rw [if_pos hcond]

theorem joinStep_length (u : User) (evId : Int) (e : EventItem)
    (h : e.participants.length ≤ CAPACITY) :
    (joinStep u evId e).participants.length ≤ CAPACITY := by
  unfold joinStep
  by_cases hid : e.id ≠ evId
  · rw [if_pos hid]; exact h
  · rw [if_neg hid]
    by_cases hcond : (isIn e u.id || !hasCapacity e) = true
    · rw [if_pos hcond]; exact h
    · rw [if_neg hcond]
      have h2 : hasCapacity e = true := by
        rcases Bool.or_eq_false_iff.mp (Bool.eq_false_iff.mpr hcond) with ⟨_, h3⟩
        simpa using h3
      have h3 : e.participants.length < CAPACITY := by
        simpa [hasCapacity] using h2
      simp only [List.length_append, List.length_cons, List.length_nil]
      omega

theorem joinStep_fourth (u : User) (evId : Int) (e : EventItem)
    (hid : e.id = evId) (hin : isIn e u.id = false)
    (hlen : e.participants.length + 1 = CAPACITY) :
    (joinStep u evId e).participants.length = CAPACITY ∧
      (joinStep u evId e).openForApplications = false := by
  unfold joinStep
  rw [if_neg (by simp [hid])]
  have hcap : hasCapacity e = true := by
    simp only [hasCapacity, decide_eq_true_eq]
    omega
  rw [if_neg (by simp [hin, hcap])]
  constructor
  · simp only [List.length_append, List.length_cons, List.length_nil]
    omega
  · simp only [List.length_append, List.length_cons, List.length_nil]
    apply decide_eq_false
    omega

theorem applyStep_noop (u : User) (evId : Int) (e : EventItem)
    (h : isIn e u.id = true ∨ CAPACITY ≤ e.participants.length) :
    applyStep u evId e = e := by
  unfold applyStep
  have hcond : (e.id ≠ evId || !e.openForApplications || !hasCapacity e
      || isIn e u.id) = true := by
    rcases h with h | h
    · simp [h]
    · have h2 : ¬ (e.participants.length < CAPACITY) := by omega
      simp [hasCapacity, h2]
  rw [if_pos hcond]

theorem applyStep_length (u : User) (evId : Int) (e : EventItem)
    (h : e.participants.length ≤ CAPACITY) :
    (applyStep u evId e).participants.length ≤ CAPACITY := by
  unfold applyStep
  by_cases hcond : (e.id ≠ evId || !e.openForApplications || !hasCapacity e
      || isIn e u.id) = true
  · rw [if_pos hcond]; exact h
  · rw [if_neg hcond]
    have h2 : hasCapacity e = true := by
      rcases Bool.or_eq_false_iff.mp (Bool.eq_false_iff.mpr hcond) with ⟨h3, _⟩
      rcases Bool.or_eq_false_iff.mp h3 with ⟨_, h4⟩
      simpa using h4
    have h3 : e.participants.length < CAPACITY := by
      simpa [hasCapacity] using h2
    simp only [List.length_append, List.length_cons, List.length_nil]
    omega

theorem adminApproveCancel_cancelInv (adm : Bool) (evId uid : Int)
    (events : List EventItem) (h : CancelInv events) :
    CancelInv (adminApproveCancel adm evId uid events) := by
  unfold adminApproveCancel
  split
  · exact h
  · intro e2 he2 r hr
    rcases List.mem_map.mp he2 with ⟨e, he, hfe⟩
    by_cases hid : e.id ≠ evId
    · rw [if_pos hid] at hfe
      subst hfe
      exact h e he r hr
    · rw [if_neg hid] at hfe
      subst hfe
      have hr2 : r ∈ e.cancelRequests.filter (fun r2 => !decide (r2.userId = uid)) := hr
      rcases List.mem_filter.mp hr2 with ⟨hrmem, hrne⟩
      obtain ⟨p, hp, hpid⟩ := h e he r hrmem
      refine ⟨p, ?_, hpid⟩
      show p ∈ e.participants.filter (fun p2 => !decide (p2.id = uid))
      rw [List.mem_filter]
      refine ⟨hp, ?_⟩
      simp only [Bool.not_eq_eq_eq_not, Bool.not_true, decide_eq_false_iff_not] at hrne ⊢
      rw [hpid]
      exact hrne

theorem adminRemoveParticipant_eq (adm : Bool) (evId uid : Int)
    (events : List EventItem) :
    adminRemoveParticipant adm evId uid events
      = adminApproveCancel adm evId uid events := rfl

theorem upsertEvent_cancelInv (isAdmin : Bool) (users : List User)
    (form : UpsertForm) (now : Int) (events : List EventItem)
    (h : CancelInv events)
    (hedit : ∀ eid, form.editingId = some eid →
      ∀ ps, mkParticipants users form.selectedUserIds form.leaderId = some ps →
        ∀ e ∈ events, e.id = eid → ∀ r ∈ e.cancelRequests, ∃ p ∈ ps, p.id = r.userId) :
    CancelInv (upsertEvent isAdmin users form now events).1 := by
  unfold upsertEvent
  split
  · exact h
  · split
    case h_2 => exact h
    case h_1 d t hd ht =>
      split
      · exact h
      · split
        · exact h
        · split
          case h_1 => exact h
          case h_2 lid hlid =>
            split
            · exact h
            · split
              case h_1 => exact h
              case h_2 ps hps =>
                split
                case h_1 eid heid =>
                  intro e2 he2 r hr
                  rcases List.mem_map.mp he2 with ⟨e, he, hfe⟩
                  by_cases hid : e.id = eid
                  · rw [if_pos hid] at hfe
                    subst hfe
                    have hr2 : r ∈ e.cancelRequests := hr
                    obtain ⟨p, hp, hpid⟩ := hedit eid heid ps hps e he hid r hr2
                    exact ⟨p, hp, hpid⟩
                  · rw [if_neg hid] at hfe
                    subst hfe
                    exact h e he r hr
                case h_2 heid =>
                  intro e2 he2 r hr
                  rcases List.mem_cons.mp he2 with h1 | h1
                  · subst h1
                    simp at hr
                  · exact h e2 h1 r hr

/-! ## The edit branch of upsertEvent: frame facts (claim C10) -/

theorem upsertEvent_edit_spec (users : List User) (form : UpsertForm) (now : Int)
    (events : List EventItem) (eid : Int) (d : Nat) (t : TimeHM) (lid : Int)
    (ps : List Participant)
    (heid : form.editingId = some eid)
    (htitle : form.title ≠ "") (hcat : form.category ≠ "")
    (hd : form.dateF = some d) (ht : form.timeF = some t)
    (hcount1 : form.selectedUserIds.length ≠ 0)
    (hcount2 : form.selectedUserIds.length ≤ CAPACITY)
    (hlid : form.leaderId = some lid) (hmemlid : lid ∈ form.selectedUserIds)
    (hps : mkParticipants users form.selectedUserIds form.leaderId = some ps) :
    (upsertEvent true users form now events).1 = events.map (fun e =>
      if e.id = eid then { e with
        title := form.title, date := d, time := some t,
        category := form.category, participants := ps,
        repeatWeekly := form.repeatWeekly }
      else e)
    ∧ (upsertEvent true users form now events).2 = none
    ∧ (upsertEvent true users form now events).1.length = events.length
    ∧ (∀ e ∈ events, e.id ≠ eid → e ∈ (upsertEvent true users form now events).1)
    ∧ (∀ e ∈ events, e.id = eid → ∃ e2, e2 ∈ (upsertEvent true users form now events).1
        ∧ e2.id = e.id ∧ e2.cancelRequests = e.cancelRequests
        ∧ e2.openForApplications = e.openForApplications
        ∧ e2.notifiedToAll = e.notifiedToAll
        ∧ e2.title = form.title ∧ e2.participants = ps) := by
  have hc2 : ¬ form.selectedUserIds.length > CAPACITY := by omega
  have hps2 : mkParticipants users form.selectedUserIds (some lid) = some ps := by
    rw [← hlid]
    exact hps
  have hmap : (upsertEvent true users form now events).1 = events.map (fun e =>
      if e.id = eid then { e with
        title := form.title, date := d, time := some t,
        category := form.category, participants := ps,
        repeatWeekly := form.repeatWeekly }
      else e) := by
    simp [upsertEvent, hd, ht, hlid, hps2, heid, htitle, hcat, hc2, hcount1, hmemlid]
  have hsnd : (upsertEvent true users form now events).2 = none := by
    simp [upsertEvent, hd, ht, hlid, hps2, heid, htitle, hcat, hc2, hcount1, hmemlid]
  refine ⟨hmap, hsnd, ?_, ?_, ?_⟩
  · rw [hmap, List.length_map]
  · intro e he hne
    rw [hmap]
    refine List.mem_map.mpr ⟨e, he, ?_⟩
    rw [if_neg hne]
  · intro e he hide
    refine ⟨{ e with
      title := form.title, date := d, time := some t,
      category := form.category, participants := ps,
      repeatWeekly := form.repeatWeekly }, ?_, rfl, rfl, rfl, rfl, rfl, rfl⟩
    rw [hmap]
    refine List.mem_map.mpr ⟨e, he, ?_⟩
    rw [if_pos hide]

theorem digitChar_inj : ∀ a < 10, ∀ b < 10,
    Char.ofNat (48 + a) = Char.ofNat (48 + b) → a = b := by decide

theorem digitChar_ne_pipe : ∀ d < 10, Char.ofNat (48 + d) ≠ '|' := by decide

theorem pad2_data (n : Nat) :
    (pad2 n).data = [Char.ofNat (48 + n / 10 % 10), Char.ofNat (48 + n % 10)] := rfl

theorem pad2_noPipe (n : Nat) : ('|' : Char) ∉ (pad2 n).data := by
  rw [pad2_data]
  intro h
  rcases List.mem_cons.mp h with h1 | h1
  · exact digitChar_ne_pipe (n / 10 % 10) (Nat.mod_lt _ (by omega)) h1.symm
  · rcases List.mem_cons.mp h1 with h2 | h2
    · exact digitChar_ne_pipe (n % 10) (Nat.mod_lt _ (by omega)) h2.symm
    · simp at h2

theorem timeStrOf_noPipe (t : Option TimeHM) : ('|' : Char) ∉ (timeStrOf t).data := by
  cases t with
  | none => simp [timeStrOf]
  | some t0 =>
    show ('|' : Char) ∉ (pad2 t0.hh ++ ":" ++ pad2 t0.mm).data
    rw [String.data_append, String.data_append]
    intro h
    rcases List.mem_append.mp h with h1 | h1
    · rcases List.mem_append.mp h1 with h2 | h2
      · exact pad2_noPipe t0.hh h2
      · exact (by decide : ('|' : Char) ∉ (":" : String).data) h2
    · exact pad2_noPipe t0.mm h1

theorem pad2_inj (a b : Nat) (ha : a < 100) (hb : b < 100)
    (h : pad2 a = pad2 b) : a = b := by
  have hd : (pad2 a).data = (pad2 b).data := by rw [h]
  rw [pad2_data, pad2_data] at hd
  injection hd with h1 hd2
  injection hd2 with h2 _
  have e1 := digitChar_inj (a / 10 % 10) (Nat.mod_lt _ (by omega))
    (b / 10 % 10) (Nat.mod_lt _ (by omega)) h1
  have e2 := digitChar_inj (a % 10) (Nat.mod_lt _ (by omega))
    (b % 10) (Nat.mod_lt _ (by omega)) h2
  omega

theorem timeStrOf_inj (t1 t2 : Option TimeHM)
    (h1 : ∀ t ∈ t1, ValidTime t) (h2 : ∀ t ∈ t2, ValidTime t)
    (h : timeStrOf t1 = timeStrOf t2) : t1 = t2 := by
  cases t1 with
  | none =>
    cases t2 with
    | none => rfl
    | some b =>
      exfalso
      have hd : ("" : String).data = (pad2 b.hh ++ ":" ++ pad2 b.mm).data := by
        rw [show ("" : String).data = (timeStrOf none).data from rfl, h]
        rfl
      rw [String.data_append, String.data_append, pad2_data] at hd
      simp at hd
  | some a =>
    cases t2 with
    | none =>
      exfalso
      have hd : (pad2 a.hh ++ ":" ++ pad2 a.mm).data = ("" : String).data := by
        rw [show (pad2 a.hh ++ ":" ++ pad2 a.mm) = timeStrOf (some a) from rfl, h]
        rfl
      rw [String.data_append, String.data_append, pad2_data] at hd
      simp at hd
    | some b =>
      obtain ⟨ha1, ha2⟩ := h1 a rfl
      obtain ⟨hb1, hb2⟩ := h2 b rfl
      have hd : (pad2 a.hh ++ ":" ++ pad2 a.mm).data
          = (pad2 b.hh ++ ":" ++ pad2 b.mm).data := by
        rw [show (pad2 a.hh ++ ":" ++ pad2 a.mm) = timeStrOf (some a) from rfl, h]
        rfl
      rw [String.data_append, String.data_append, String.data_append,
        String.data_append, pad2_data, pad2_data, pad2_data, pad2_data] at hd
      simp only [List.cons_append, List.nil_append] at hd
      injection hd with e1 hd
      injection hd with e2 hd
      injection hd with e3 hd
      injection hd with e4 hd
      injection hd with e5 _
      have q1 := digitChar_inj (a.hh / 10 % 10) (Nat.mod_lt _ (by omega))
        (b.hh / 10 % 10) (Nat.mod_lt _ (by omega)) e1
      have q2 := digitChar_inj (a.hh % 10) (Nat.mod_lt _ (by omega))
        (b.hh % 10) (Nat.mod_lt _ (by omega)) e2
      have q4 := digitChar_inj (a.mm / 10 % 10) (Nat.mod_lt _ (by omega))
        (b.mm / 10 % 10) (Nat.mod_lt _ (by omega)) e4
      have q5 := digitChar_inj (a.mm % 10) (Nat.mod_lt _ (by omega))
        (b.mm % 10) (Nat.mod_lt _ (by omega)) e5
      have hfields : a.hh = b.hh ∧ a.mm = b.mm := by
        constructor <;> omega
      have hab : a = b := by
        cases a
        cases b
        obtain ⟨ehh, emm⟩ := hfields
        simp only at ehh emm
        rw [ehh, emm]
      rw [hab]

theorem noPipeSplit : ∀ (a b u v : List Char), ('|' : Char) ∉ a → ('|' : Char) ∉ b →
    a ++ '|' :: u = b ++ '|' :: v → a = b ∧ u = v := by
  intro a
  induction a with
  | nil =>
    intro b u v _ hb h
    cases b with
    | nil =>
      simp only [List.nil_append] at h
      injection h with _ h2
      exact ⟨rfl, h2⟩
    | cons c b2 =>
      simp only [List.nil_append, List.cons_append] at h
      injection h with h1 _
      exact absurd (h1 ▸ List.mem_cons_self c b2) hb
  | cons c a2 ih =>
    intro b u v ha hb h
    cases b with
    | nil =>
      simp only [List.cons_append, List.nil_append] at h
      injection h with h1 _
      exact absurd (h1 ▸ List.mem_cons_self c a2) ha
    | cons c2 b2 =>
      simp only [List.cons_append] at h
      injection h with h1 h2
      have ha2 : ('|' : Char) ∉ a2 := fun hm => ha (List.mem_cons_of_mem c hm)
      have hb2 : ('|' : Char) ∉ b2 := fun hm => hb (List.mem_cons_of_mem c2 hm)
      obtain ⟨e1, e2⟩ := ih b2 u v ha2 hb2 h2
      exact ⟨by rw [h1, e1], e2⟩

theorem keyOf_data (e : EventItem) :
    (keyOf e).data = e.title.data
      ++ '|' :: ((timeStrOf e.time).data ++ '|' :: e.category.data) := by
  show (e.title ++ "|" ++ timeStrOf e.time ++ "|" ++ e.category).data = _
  rw [String.data_append, String.data_append, String.data_append, String.data_append]
  simp [List.append_assoc]

theorem keyOf_inj (e1 e2 : EventItem)
    (ht1 : NoPipe e1.title) (ht2 : NoPipe e2.title)
    (hv1 : ∀ t ∈ e1.time, ValidTime t) (hv2 : ∀ t ∈ e2.time, ValidTime t)
    (h : keyOf e1 = keyOf e2) : tupleKey e1 = tupleKey e2 := by
  have hd := congrArg String.data h
  rw [keyOf_data, keyOf_data] at hd
  obtain ⟨htit, hrest⟩ := noPipeSplit _ _ _ _ ht1 ht2 hd
  obtain ⟨hts, hcat⟩ := noPipeSplit _ _ _ _
    (timeStrOf_noPipe e1.time) (timeStrOf_noPipe e2.time) hrest
  have h1 : e1.title = e2.title := String.ext htit
  have h2 : e1.time = e2.time := timeStrOf_inj _ _ hv1 hv2 (String.ext hts)
  have h3 : e1.category = e2.category := String.ext hcat
  show (e1.title, e1.time, e1.category) = (e2.title, e2.time, e2.category)
  rw [h1, h2, h3]

section GroupCongr

variable {α : Type u_1} {κ : Type u_2} {κ2 : Type u_3} [DecidableEq κ] [DecidableEq κ2]

theorem keyListBy_filter_ne (f : α → κ) (k0 : κ) : ∀ (l : List α),
    keyListBy f (l.filter (fun x => !decide (f x = k0)))
      = (keyListBy f l).filter (fun k => !decide (k = k0)) := by
  intro l
  induction l with
  | nil => rfl
  | cons a t ih =>
    by_cases hk : f a = k0
    · rw [List.filter_cons_of_neg (by simp [hk]), keyListBy_cons, List.filter_cons_of_neg
        (by simp [hk]), ih, List.filter_filter]
      apply List.filter_congr
      intro k _
      by_cases h1 : k = k0 <;> simp [h1, hk]
    · rw [List.filter_cons_of_pos (by simp [hk]), keyListBy_cons, keyListBy_cons,
        List.filter_cons_of_pos (by simp [hk]), ih, List.filter_filter,
        List.filter_filter]
      refine congrArg _ (List.filter_congr ?_)
      intro k _
      by_cases h1 : k = k0 <;> by_cases h2 : k = f a <;> simp [h1, h2]

theorem sndGroupsBy_cons (f : α → κ) (a : α) (t : List α) :
    sndGroupsBy f (a :: t)
      = ((a :: t).filter (fun e => decide (f e = f a)))
        :: sndGroupsBy f (t.filter (fun e => !decide (f e = f a))) := by
  unfold sndGroupsBy
  rw [keyListBy_cons, List.map_cons, keyListBy_filter_ne]
  refine congrArg _ ?_
  apply List.map_congr_left
  intro k hk
  have hkne : k ≠ f a := by
    have := (List.mem_filter.mp hk).2
    simpa using this
  rw [List.filter_filter, List.filter_cons_of_neg (by simp; exact fun h => absurd h.symm hkne)]
  apply List.filter_congr
  intro e _
  by_cases h1 : f e = k
  · have h2 : ¬ f e = f a := fun h => hkne (h1.symm.trans h)
    simp [h1, h2, hkne]
  · simp [h1]

theorem sndGroupsBy_congr (f : α → κ) (g : α → κ2) : ∀ (n : Nat) (l : List α),
    l.length ≤ n → (∀ a ∈ l, ∀ b ∈ l, (f a = f b ↔ g a = g b)) →
    sndGroupsBy f l = sndGroupsBy g l := by
  intro n
  induction n with
  | zero =>
    intro l hl _
    have : l = [] := List.length_eq_zero.mp (Nat.le_zero.mp hl)
    rw [this]
    rfl
  | succ n ih =>
    intro l hl hfg
    cases l with
    | nil => rfl
    | cons a t =>
      rw [sndGroupsBy_cons, sndGroupsBy_cons]
      have hhead : (a :: t).filter (fun e => decide (f e = f a))
          = (a :: t).filter (fun e => decide (g e = g a)) := by
        apply List.filter_congr
        intro e he
        have := hfg e he a (List.mem_cons_self a t)
        by_cases h1 : f e = f a
        · simp [h1, this.mp h1]
        · have h2 : ¬ g e = g a := fun h2 => h1 (this.mpr h2)
          simp [h1, h2]
      have htail : t.filter (fun e => !decide (f e = f a))
          = t.filter (fun e => !decide (g e = g a)) := by
        apply List.filter_congr
        intro e he
        have := hfg e (List.mem_cons_of_mem a he) a (List.mem_cons_self a t)
        by_cases h1 : f e = f a
        · simp [h1, this.mp h1]
        · have h2 : ¬ g e = g a := fun h2 => h1 (this.mpr h2)
          simp [h1, h2]
      rw [hhead, htail]
      refine congrArg _ ?_
      apply ih
      · have h1 : (t.filter (fun e => !decide (g e = g a))).length ≤ t.length :=
          List.length_filter_le _ t
        have h2 : t.length + 1 ≤ n + 1 := hl
        omega
      · intro x hx y hy
        exact hfg x (List.mem_cons_of_mem a (List.mem_of_mem_filter hx))
          y (List.mem_cons_of_mem a (List.mem_of_mem_filter hy))

theorem flatMap_perm_of_pointwise (F G : α → List β) : ∀ (gs : List α),
    (∀ b ∈ gs, (F b).Perm (G b)) → (gs.flatMap F).Perm (gs.flatMap G) := by
  intro gs
  induction gs with
  | nil => intro _; rfl
  | cons a t ih =>
    intro h
    rw [List.flatMap_cons, List.flatMap_cons]
    exact (h a (List.mem_cons_self a t)).append
      (ih (fun b hb => h b (List.mem_cons_of_mem a hb)))

end GroupCongr

/-! ## The feed projection agrees with the specification view (claim C9) -/

theorem keyOf_congr (a b : EventItem) (h : tupleKey a = tupleKey b) : keyOf a = keyOf b := by
  have h1 : a.title = b.title := congrArg Prod.fst h
  have h2 : a.time = b.time := congrArg (fun p => p.2.1) h
  have h3 : a.category = b.category := congrArg (fun p => p.2.2) h
  unfold keyOf
  rw [h1, h2, h3]

theorem groupByKey_snd_eq (events : List EventItem) (h : WellFormedFeed events) :
    (groupByKey events).map Prod.snd = (groupByTuple events).map Prod.snd := by
  have e1 : (groupByKey events).map Prod.snd = sndGroupsBy keyOf events := by
    unfold groupByKey groupPairsBy sndGroupsBy
    rw [List.map_map]
    rfl
  have e2 : (groupByTuple events).map Prod.snd = sndGroupsBy tupleKey events := by
    unfold groupByTuple groupPairsBy sndGroupsBy
    rw [List.map_map]
    rfl
  rw [e1, e2]
  apply sndGroupsBy_congr keyOf tupleKey events.length events (le_refl _)
  intro a ha b hb
  obtain ⟨ha1, ha2, ha3⟩ := h a ha
  obtain ⟨hb1, hb2, hb3⟩ := h b hb
  exact ⟨keyOf_inj a b ha1 hb1 ha3 hb3, keyOf_congr a b⟩

theorem includedOfGroup_perm_spec (now : Int) (g : List EventItem) :
    (includedOfGroup now g).Perm (specIncludedOfGroup now g) := by
  unfold includedOfGroup specIncludedOfGroup
  rw [filter_insertionSort, filter_insertionSort]
  exact (List.perm_insertionSort evLe _).append (List.Perm.refl _)

theorem feedByCategory_matches_spec (now : Int) (events : List EventItem) (c : String)
    (h : WellFormedFeed events) :
    (feedByCategory now events c).Perm (specBucket now events c)
      ∧ List.Sorted evLe (feedByCategory now events c) := by
  constructor
  · have hgroups := groupByKey_snd_eq events h
    have e1 : ((groupByKey events).map Prod.snd).flatMap (includedOfGroup now)
        = includedAll now events := by
      rw [List.flatMap_map]
      rfl
    have e2 : ((groupByTuple events).map Prod.snd).flatMap (specIncludedOfGroup now)
        = (groupByTuple events).flatMap (fun kg => specIncludedOfGroup now kg.2) := by
      rw [List.flatMap_map]
    have hincl : (includedAll now events).Perm
        ((groupByTuple events).flatMap (fun kg => specIncludedOfGroup now kg.2)) := by
      rw [← e1, hgroups, ← e2]
      exact flatMap_perm_of_pointwise _ _ _ (fun g0 _ => includedOfGroup_perm_spec now g0)
    have hfilter := hincl.filter (fun e => decide (e.category = c))
    unfold feedByCategory specBucket
    exact (List.perm_insertionSort evLe _).trans hfilter
  · unfold feedByCategory
    exact List.sorted_insertionSort evLe _

/-! ## Remaining action facts -/

theorem joinStep_id (u : User) (evId : Int) (e : EventItem) :
    (joinStep u evId e).id = e.id := by
  unfold joinStep
  split
  · rfl
  · split <;> rfl

theorem applyStep_ne (u : User) (evId : Int) (e : EventItem) (h : e.id ≠ evId) :
    applyStep u evId e = e := by
  unfold applyStep
  rw [if_pos (by simp [h])]

/-! ## The fallible generation agrees with the total model on
time-complete collections -/

theorem startedByNowE_eq (now : Int) (e : EventItem) (h : e.time.isSome) :
    startedByNowE now e = Except.ok (startedByNow now e) := by
  cases ht : e.time with
  | none => simp [ht] at h
  | some t => simp [startedByNowE, startedByNow, ht]

theorem findE_eq {α : Type u_1} (pE : α → Except Unit Bool) (p : α → Bool) :
    ∀ (L : List α), (∀ a ∈ L, pE a = Except.ok (p a)) →
      findE pE L = Except.ok (L.find? p) := by
  intro L
  induction L with
  | nil => intro _; rfl
  | cons a t ih =>
    intro h
    have ha := h a (List.mem_cons_self a t)
    unfold findE
    rw [ha]
    cases hp : p a with
    | true => simp [List.find?_cons, hp]
    | false =>
      rw [ih (fun b hb => h b (List.mem_cons_of_mem a hb))]
      simp [List.find?_cons, hp]

theorem recentlyPassedE_eq (now : Int) (g : List EventItem)
    (h : ∀ e ∈ g, e.time.isSome) :
    recentlyPassedE now g = Except.ok (recentlyPassed now g) := by
  unfold recentlyPassedE recentlyPassed
  apply findE_eq
  intro a ha
  apply startedByNowE_eq
  apply h
  rw [List.mem_reverse] at ha
  exact (List.perm_insertionSort evLe g).mem_iff.mp ha

theorem genCoreE_eq (now : Int) (g : List EventItem) (h : ∀ e ∈ g, e.time.isSome) :
    genCoreE now g = Except.ok (genCore now g) := by
  unfold genCoreE genCore
  by_cases hrep : g.any (fun x => x.repeatWeekly) = true
  · rw [if_pos hrep, if_pos hrep, recentlyPassedE_eq now g h]
    cases hrp : recentlyPassed now g with
    | none => rfl
    | some rp =>
      by_cases hex : existsNext g (add7KstSafe rp.date) rp.time = true
      · simp [hex]
      · simp [hex]
  · rw [if_neg hrep, if_neg hrep]

theorem genCollectE_eq (now : Int) :
    ∀ (gs : List (String × List EventItem)) (list : List EventItem),
      (∀ kg ∈ gs, ∀ e ∈ kg.2, e.time.isSome) →
      genCollectE now gs list = Except.ok (genCollect now gs list) := by
  intro gs
  induction gs with
  | nil => intro list _; rfl
  | cons kg gs ih =>
    intro list h
    have hg := h kg (List.mem_cons_self kg gs)
    have htail := fun kg2 hkg2 => h kg2 (List.mem_cons_of_mem kg hkg2)
    unfold genCollectE genCollect
    rw [genCoreE_eq now kg.2 hg]
    cases hc : genCore now kg.2 with
    | none => exact ih list htail
    | some c =>
      have hrec := ih (list ++ [({ c with id := makeId now list } : EventItem)]) htail
      simp only [hrec]

theorem tickE_eq (now : Int) (l : List EventItem) (h : ∀ e ∈ l, e.time.isSome) :
    tickE now l = Except.ok (tick now l) := by
  have hp : ∀ kg ∈ groupByKey (pruneEvents now l), ∀ e ∈ kg.2, e.time.isSome := by
    intro kg hkg e he
    have h1 : e ∈ pruneEvents now l := mem_of_mem_group keyOf hkg he
    exact h e (List.mem_of_mem_filter h1)
  unfold tickE genWeeklyE
  rw [genCollectE_eq now (groupByKey (pruneEvents now l)) (pruneEvents now l) hp]
  rfl

theorem genCollect_time_isSome (now : Int) :
    ∀ (gs : List (String × List EventItem)) (list : List EventItem),
      (∀ kg ∈ gs, ∀ e ∈ kg.2, e.time.isSome) →
      ∀ x ∈ genCollect now gs list, x.time.isSome := by
  intro gs
  induction gs with
  | nil => intro list _ x hx; simp [genCollect] at hx
  | cons kg gs ih =>
    intro list h x hx
    have hg := h kg (List.mem_cons_self kg gs)
    have htail := fun kg2 hkg2 => h kg2 (List.mem_cons_of_mem kg hkg2)
    unfold genCollect at hx
    cases hc : genCore now kg.2 with
    | none =>
      rw [hc] at hx
      exact ih list htail x hx
    | some c =>
      rw [hc] at hx
      rcases List.mem_cons.mp hx with h1 | h1
      · obtain ⟨rp, hrp, hmem, hstart, hrep, hex, hceq⟩ :=
          genCore_some_spec now kg.2 c hc
        have : x.time = rp.time := by rw [h1, hceq]
        rw [this]
        exact hg rp hmem
      · exact ih (list ++ [{ c with id := makeId now list }]) htail x h1

theorem tick_time_isSome (now : Int) (l : List EventItem)
    (h : ∀ e ∈ l, e.time.isSome) : ∀ e ∈ tick now l, e.time.isSome := by
  intro e he
  rcases List.mem_append.mp he with h1 | h1
  · exact h e (List.mem_of_mem_filter h1)
  · refine genCollect_time_isSome now _ _ ?_ e h1
    intro kg hkg x hx
    have h2 : x ∈ pruneEvents now l := mem_of_mem_group keyOf hkg hx
    exact h x (List.mem_of_mem_filter h2)

/-! ## The claims -/

/-- C1: for the two-member Saturday Meetup series dated 2025-08-02 and
2025-08-09, both weekly, at now = 2025-08-09T10:01 (+09:00), one tick
prunes the 2025-08-02 member, keeps the 2025-08-09 member and appends a
clone dated 2025-08-16 with a fresh id, empty cancelRequests,
notifiedToAll = false and openForApplications = (participants < 4); the
resulting dates are exactly 2025-08-09 and 2025-08-16. -/
theorem C1_recurrence_scenarioA (e1 e2 : EventItem)
    (h1t : e1.title = "Saturday Meetup") (h1time : e1.time = some ⟨10, 0⟩)
    (h1c : e1.category = "Saturday") (h1d : e1.date = toDayNumber ⟨2025, 8, 2⟩)
    (h1r : e1.repeatWeekly = true)
    (h2t : e2.title = "Saturday Meetup") (h2time : e2.time = some ⟨10, 0⟩)
    (h2c : e2.category = "Saturday") (h2d : e2.date = toDayNumber ⟨2025, 8, 9⟩)
    (h2r : e2.repeatWeekly = true) :
    tick scenarioNow [e1, e2] = [e2, { e2 with
        id := makeId scenarioNow [e2],
        date := toDayNumber ⟨2025, 8, 16⟩,
        cancelRequests := [],
        notifiedToAll := false,
        openForApplications := decide (e2.participants.length < CAPACITY),
        repeatWeekly := true }]
      ∧ makeId scenarioNow [e2] ≠ e2.id
      ∧ (tick scenarioNow [e1, e2]).map (fun e => e.date)
          = [toDayNumber ⟨2025, 8, 9⟩, toDayNumber ⟨2025, 8, 16⟩] :=
  tick_scenarioA e1 e2 h1t h1time h1c h1d h1r h2t h2time h2c h2d h2r

/-- C1 witness: the scenario at the two concrete events. -/
theorem C1_recurrence_scenarioA_witness :
    tick scenarioNow [e1c, e2c] = [e2c, { e2c with
        id := makeId scenarioNow [e2c],
        date := toDayNumber ⟨2025, 8, 16⟩,
        cancelRequests := [],
        notifiedToAll := false,
        openForApplications := decide (e2c.participants.length < CAPACITY),
        repeatWeekly := true }]
      ∧ makeId scenarioNow [e2c] ≠ e2c.id
      ∧ (tick scenarioNow [e1c, e2c]).map (fun e => e.date)
          = [toDayNumber ⟨2025, 8, 9⟩, toDayNumber ⟨2025, 8, 16⟩] :=
  C1_recurrence_scenarioA e1c e2c rfl rfl rfl rfl rfl rfl rfl rfl rfl rfl

/-- C2 (amended): on a collection where every event has a time-of-day, one
application of the recurrence transform succeeds — the fallible model
agrees with the total one — and a second application at the same instant
succeeds and returns the same collection unchanged.  (Over every
collection the claim fails: a repeating event without a time-of-day makes
the generation scan throw, so the transform yields no collection at all —
the counterexample.) -/
theorem C2_tick_idempotent (now : Int) (l : List EventItem)
    (h : ∀ e ∈ l, e.time.isSome) :
    tickE now l = Except.ok (tick now l)
      ∧ tickE now (tick now l) = Except.ok (tick now l) := by
  refine ⟨tickE_eq now l h, ?_⟩
  rw [tickE_eq now (tick now l) (tick_time_isSome now l h), tick_idem now l]

/-- C2 witness: both applications at the concrete Scenario A collection. -/
theorem C2_tick_idempotent_witness :
    tickE scenarioNow [e1c, e2c] = Except.ok (tick scenarioNow [e1c, e2c])
      ∧ tickE scenarioNow (tick scenarioNow [e1c, e2c])
          = Except.ok (tick scenarioNow [e1c, e2c]) :=
  C2_tick_idempotent scenarioNow [e1c, e2c] (by decide)

/-- C2 counterexample: a repeating event without a time-of-day survives
pruning and its group is scanned, so the real transform throws and yields
no collection, while the totalized model silently returns the collection
unchanged. -/
theorem C2_tick_counterexample :
    tickE 0 [evT] = Except.error () ∧ tick 0 [evT] = [evT] := ⟨rfl, rfl⟩

/-- C3: a remote-change notification whose re-fetched serialization equals
lastSynced leaves the channel unchanged; one that differs sets lastSynced
to the fetched serialization and the value to the fetched value, after
which the save effect schedules nothing (the write-back is suppressed). -/
theorem C3_notification_echo_suppression {T : Type u_1} (jf : T → String)
    (fetched : T) (st : Chan T) :
    (jf fetched = st.lastSynced → handleNotification jf fetched st = st)
    ∧ (jf fetched ≠ st.lastSynced →
        (handleNotification jf fetched st).value = fetched
        ∧ (handleNotification jf fetched st).lastSynced = jf fetched
        ∧ saveEffect jf (handleNotification jf fetched st)
            = handleNotification jf fetched st) := by
  constructor
  · intro h
    unfold handleNotification
    rw [if_pos h]
  · intro h
    unfold handleNotification
    rw [if_neg h]
    refine ⟨rfl, rfl, ?_⟩
    unfold saveEffect scheduleSave
    simp

/-- C4 (amended): the writes performed at the end of one quiet window are
the last burst value whose serialization differs from lastSynced — at most
one write, and none when every value of the burst serializes to
lastSynced.  (The unamended claim — "the payload is the value produced by
the last call, and no write happens when the final value serializes to
lastSynced" — is refuted by the counterexample: an early return in
scheduleSave leaves an older pending write alive.) -/
theorem C4_debounce_window_writes {T : Type u_1} (jf : T → String) (ls : String)
    (vs : List T) :
    windowWrites jf ls vs
      = ((vs.filter (fun v => !decide (jf v = ls))).getLast?).toList := by
  unfold windowWrites burstPending
  rw [burst_foldl_spec]
  simp

/-- C4 counterexample: a burst whose final value serializes to lastSynced
still performs one write, and its payload is not the final value. -/
theorem C4_debounce_counterexample :
    windowWrites jEvents (jEvents []) [[ev0], []] = [[ev0]]
      ∧ windowWrites jEvents (jEvents []) [[ev0], []] ≠ []
      ∧ windowWrites jEvents (jEvents []) [[ev0], []] ≠ [[]] := by decide

/-- C5 (amended): deletion and creation dispatch their write in the same
step as the local mutation, bypassing the debounce timer (the pending
write is untouched) — but the completion handler of that immediate write
leaves lastSynced unchanged (the unamended "still updating lastSynced on
completion" is refuted by the counterexample). -/
theorem C5_immediate_flush (evId : Int) (st : Chan (List EventItem))
    (users : List User) (form : UpsertForm) (now : Int) :
    ((deleteEventFlow true evId st).2 = some (deleteEventLocal evId st.value)
      ∧ (deleteEventFlow true evId st).1.pending = st.pending
      ∧ (immediateSaveComplete (deleteEventFlow true evId st).1).lastSynced
          = st.lastSynced)
    ∧ ((upsertEventFlow true users form now st).2
        = (upsertEvent true users form now st.value).2
      ∧ (upsertEventFlow true users form now st).1.pending = st.pending
      ∧ (immediateSaveComplete (upsertEventFlow true users form now st).1).lastSynced
          = st.lastSynced) := by
  refine ⟨⟨?_, rfl, rfl⟩, rfl, rfl, rfl⟩
  unfold deleteEventFlow
  simp

/-- C5 counterexample: after the immediate write of a deletion completes,
lastSynced still differs from the serialization of the written value. -/
theorem C5_immediate_flush_counterexample :
    (immediateSaveComplete (deleteEventFlow true 1 ch0).1).lastSynced
      ≠ jEvents (deleteEventFlow true 1 ch0).1.value := by decide

/-- C6: participants.length ≤ 4 is preserved by joinEvent and applyForSlot;
the join that fills the fourth slot recomputes openForApplications to
false; and a join attempt on a full event, or by a user already in, leaves
the whole collection unchanged (likewise for applyForSlot). -/
theorem C6_capacity_invariant (u : User) (evId : Int) (events : List EventItem) :
    ((∀ e ∈ events, e.participants.length ≤ CAPACITY) →
        (∀ e2 ∈ joinEvent u evId events, e2.participants.length ≤ CAPACITY)
        ∧ (∀ e2 ∈ applyForSlot u evId events, e2.participants.length ≤ CAPACITY))
    ∧ (∀ e ∈ events, e.id = evId → isIn e u.id = false →
        e.participants.length + 1 = CAPACITY →
        ∃ e2 ∈ joinEvent u evId events, e2.id = e.id
          ∧ e2.participants.length = CAPACITY ∧ e2.openForApplications = false)
    ∧ ((∀ e ∈ events, e.id = evId →
          isIn e u.id = true ∨ CAPACITY ≤ e.participants.length) →
        joinEvent u evId events = events ∧ applyForSlot u evId events = events) := by
  refine ⟨?_, ?_, ?_⟩
  · intro h
    constructor
    · intro e2 he2
      rcases List.mem_map.mp he2 with ⟨e, he, hfe⟩
      rw [← hfe]
      exact joinStep_length u evId e (h e he)
    · intro e2 he2
      rcases List.mem_map.mp he2 with ⟨e, he, hfe⟩
      rw [← hfe]
      exact applyStep_length u evId e (h e he)
  · intro e he hid hin hlen
    refine ⟨joinStep u evId e, List.mem_map.mpr ⟨e, he, rfl⟩, joinStep_id u evId e, ?_⟩
    exact joinStep_fourth u evId e hid hin hlen
  · intro h
    constructor
    · apply map_eq_self_of
      intro e he
      by_cases hid : e.id = evId
      · exact joinStep_noop u evId e (h e he hid)
      · exact joinStep_ne u evId e hid
    · apply map_eq_self_of
      intro e he
      by_cases hid : e.id = evId
      · exact applyStep_noop u evId e (h e he hid)
      · exact applyStep_ne u evId e hid

/-- C7 (amended): the invariant "every cancelRequests entry references a
current participant" is preserved by adminApproveCancel and
adminRemoveParticipant (both drop the matching cancel request with the
participant); the participant-replacing edit branch of upsertEvent keeps
cancelRequests untouched, so it preserves the invariant only when every
cancel request of the edited event references one of the new participants
(the unamended claim over all mutating operations is refuted by the
counterexample). -/
theorem C7_cancel_requests_invariant (adm : Bool) (evId uid : Int)
    (isAdmin : Bool) (users : List User) (form : UpsertForm) (now : Int)
    (events : List EventItem) :
    (CancelInv events → CancelInv (adminApproveCancel adm evId uid events))
    ∧ (CancelInv events → CancelInv (adminRemoveParticipant adm evId uid events))
    ∧ (CancelInv events →
        (∀ eid, form.editingId = some eid →
          ∀ ps, mkParticipants users form.selectedUserIds form.leaderId = some ps →
            ∀ e ∈ events, e.id = eid →
              ∀ r ∈ e.cancelRequests, ∃ p ∈ ps, p.id = r.userId) →
        CancelInv (upsertEvent isAdmin users form now events).1) := by
  refine ⟨?_, ?_, ?_⟩
  · intro h
    exact adminApproveCancel_cancelInv adm evId uid events h
  · intro h
    rw [adminRemoveParticipant_eq]
    exact adminApproveCancel_cancelInv adm evId uid events h
  · intro h hedit
    exact upsertEvent_cancelInv isAdmin users form now events h hedit

/-- C7 counterexample: an admin edit that replaces the participant list
leaves a cancel request referencing the removed participant, breaking the
invariant. -/
theorem C7_cancel_requests_counterexample :
    CancelInv [ev7] ∧ ¬ CancelInv (upsertEvent true users7 form7 0 [ev7]).1 := by
  decide

/-- C8: for every valid civil date and time-of-day, converting to an
absolute instant (kstToUtcISO under the fixed +09:00 offset) and back
(utcISOToKst) is the identity. -/
theorem C8_converter_roundtrip (d : CivilDate) (t : TimeHM)
    (hd : ValidDate d) (ht : ValidTime t) :
    utcISOToKst (kstToUtcISOCivil d t) = (d, t) :=
  utcISOToKst_kstToUtcISOCivil d t hd ht

/-- C8 witness: the round trip at 2025-08-09 10:01. -/
theorem C8_converter_roundtrip_witness :
    ValidDate ⟨2025, 8, 9⟩ ∧ ValidTime ⟨10, 1⟩
      ∧ utcISOToKst (kstToUtcISOCivil ⟨2025, 8, 9⟩ ⟨10, 1⟩) = (⟨2025, 8, 9⟩, ⟨10, 1⟩) :=
  ⟨by decide, by decide,
    C8_converter_roundtrip ⟨2025, 8, 9⟩ ⟨10, 1⟩ (by decide) (by decide)⟩

/-- C9 (amended): when titles and categories are pipe-free and times valid
(so the pipe-joined group key is injective), each category's feed bucket is
a permutation of the specification bucket — all reached members of each
(title, time, category) series plus the earliest future member of a series
having one, restricted to the category — and the bucket is sorted
ascending by (date, time).  (On arbitrary collections the pipe-joined key
conflates distinct series; the counterexample refutes the unamended
claim.) -/
theorem C9_feed_projection (now : Int) (events : List EventItem) (c : String)
    (h : WellFormedFeed events) :
    (feedByCategory now events c).Perm (specBucket now events c)
      ∧ List.Sorted evLe (feedByCategory now events c) :=
  feedByCategory_matches_spec now events c h

/-- C9 witness: the projection at a concrete well-formed collection. -/
theorem C9_feed_projection_witness :
    WellFormedFeed [evW]
      ∧ ((feedByCategory 0 [evW] "c").Perm (specBucket 0 [evW] "c")
        ∧ List.Sorted evLe (feedByCategory 0 [evW] "c")) :=
  ⟨by decide, C9_feed_projection 0 [evW] "c" (by decide)⟩

/-- C9 counterexample: with a pipe inside a title and a category, two
distinct (title, time, category) series share one pipe-joined key; the code
shows neither member of category "z" while the specification bucket holds
one. -/
theorem C9_feed_projection_counterexample :
    feedByCategory 0 [e1x, e2x] "z" = []
      ∧ specBucket 0 [e1x, e2x] "z" = [e2x] := by decide

/-- C10: an admin edit through upsertEvent (valid form, existing id)
rewrites the matching event's title, date, time, category, participants
and repeatWeekly in place, keeping its id, cancelRequests,
openForApplications and notifiedToAll unchanged — openForApplications is
not recomputed — leaves every other event unchanged, keeps the
collection's length, and dispatches no immediate write. -/
theorem C10_upsert_edit_frame (users : List User) (form : UpsertForm) (now : Int)
    (events : List EventItem) (eid : Int) (d : Nat) (t : TimeHM) (lid : Int)
    (ps : List Participant)
    (heid : form.editingId = some eid)
    (htitle : form.title ≠ "") (hcat : form.category ≠ "")
    (hd : form.dateF = some d) (ht : form.timeF = some t)
    (hcount1 : form.selectedUserIds.length ≠ 0)
    (hcount2 : form.selectedUserIds.length ≤ CAPACITY)
    (hlid : form.leaderId = some lid) (hmemlid : lid ∈ form.selectedUserIds)
    (hps : mkParticipants users form.selectedUserIds form.leaderId = some ps) :
    (upsertEvent true users form now events).1 = events.map (fun e =>
      if e.id = eid then { e with
        title := form.title, date := d, time := some t,
        category := form.category, participants := ps,
        repeatWeekly := form.repeatWeekly }
      else e)
    ∧ (upsertEvent true users form now events).2 = none
    ∧ (upsertEvent true users form now events).1.length = events.length
    ∧ (∀ e ∈ events, e.id ≠ eid → e ∈ (upsertEvent true users form now events).1)
    ∧ (∀ e ∈ events, e.id = eid → ∃ e2, e2 ∈ (upsertEvent true users form now events).1
        ∧ e2.id = e.id ∧ e2.cancelRequests = e.cancelRequests
        ∧ e2.openForApplications = e.openForApplications
        ∧ e2.notifiedToAll = e.notifiedToAll
        ∧ e2.title = form.title ∧ e2.participants = ps) :=
  upsertEvent_edit_spec users form now events eid d t lid ps heid htitle hcat hd ht
    hcount1 hcount2 hlid hmemlid hps

/-- C10 witness: one concrete admin edit keeps the collection length and
returns no immediate write. -/
theorem C10_upsert_edit_frame_witness :
    (upsertEvent true users7 form7 0 [ev7]).2 = none
      ∧ (upsertEvent true users7 form7 0 [ev7]).1.length
          = ([ev7] : List EventItem).length :=
  have h := C10_upsert_edit_frame users7 form7 0 [ev7] 1 2 ⟨9, 30⟩ 6 [⟨6, "q", true⟩]
    rfl (by decide) (by decide) rfl rfl (by decide) (by decide) rfl (by decide)
    (by decide)
  ⟨h.2.1, h.2.2.1⟩
